import Mathlib

/-!
Verification of the Connect-4 core of `creatisoft/line4up`
(`src/game/Board.js`, `src/game/GameLogic.js`, `src/game/AI.js`)
against its natural-language specification.

The JS board is always a 6×7 grid of numbers (0 = empty, 1 = player 1,
2 = player 2); we embed it as a total function `Fin 6 → Fin 7 → Nat`.
Mutation in the source becomes explicit state passing: operations that
mutate the grid return the new board.  JS `null` (out-of-bounds reads)
becomes `Option`.
-/

namespace Line4up

/-- Embeds `ROWS` from Board.js. -/
def ROWS : Nat := 6
/-- Embeds `COLS` from Board.js. -/
def COLS : Nat := 7
/-- Embeds `EMPTY` from Board.js. -/
def EMPTY : Nat := 0
/-- Embeds `PLAYER_1` from Board.js. -/
def PLAYER_1 : Nat := 1
/-- Embeds `PLAYER_2` from Board.js. -/
def PLAYER_2 : Nat := 2

/-- The 6×7 grid: the `grid` field of `Board` in Board.js, which the
constructor always initialises to 6 rows of 7 cells. -/
def Board : Type := Fin 6 → Fin 7 → Nat

instance : DecidableEq Board := by unfold Board; infer_instance

/-- Embeds `Board.reset` / the freshly constructed board: all cells `EMPTY`. -/
def emptyBoard : Board := fun _ _ => EMPTY

/-- Embeds `Board.getCell(row, col)`: returns `null` (here `none`) out of bounds,
otherwise the cell value. -/
def getCell (b : Board) (row col : Int) : Option Nat :=
  if h : 0 ≤ row ∧ row < 6 ∧ 0 ≤ col ∧ col < 7 then
    some (b ⟨row.toNat, by omega⟩ ⟨col.toNat, by omega⟩)
  else
    none

/-- Embeds `Board.setCell(row, col, value)`: writes the cell if the indices are in
bounds, otherwise leaves the board unchanged. -/
def setCell (b : Board) (row col : Int) (value : Nat) : Board :=
  if h : 0 ≤ row ∧ row < 6 ∧ 0 ≤ col ∧ col < 7 then
    fun r c =>
      if r = (⟨row.toNat, by omega⟩ : Fin 6) ∧ c = (⟨col.toNat, by omega⟩ : Fin 7) then value
      else b r c
  else
    b

/-- The row loop of `Board.findLowestRow`: first row in the list whose cell
in column `c` is `EMPTY`. -/
def findFrom (b : Board) (c : Fin 7) : List (Fin 6) → Option (Fin 6)
  | [] => none
  | r :: rest => if b r c = EMPTY then some r else findFrom b c rest

/-- Embeds `Board.findLowestRow(col)`: the lowest empty row of `col`, or `-1` when
the column is out of bounds or full. -/
def findLowestRow (b : Board) (col : Int) : Int :=
  if h : 0 ≤ col ∧ col < 7 then
    match findFrom b ⟨col.toNat, by omega⟩ (List.finRange 6) with
    | some r => (r : Int)
    | none => -1
  else
    -1

/-- Embeds `Board.isColumnFull(col)`. -/
def isColumnFull (b : Board) (col : Int) : Bool :=
  findLowestRow b col == -1

/-- Embeds `Board.dropToken(col, player)`: returns the landing row (or `-1`)
together with the resulting board (state-passing form of the mutation
`this.grid[row][col] = player`). -/
def dropToken (b : Board) (col : Int) (player : Nat) : Int × Board :=
  let row := findLowestRow b col
  if row = -1 then (-1, b)
  else (row, setCell b row col player)

/-- Embeds `Board.isFull()`. -/
def isFull (b : Board) : Bool :=
  (List.range 7).all fun col => isColumnFull b (col : Int)

/-- Embeds `Board.getValidMoves()`: ascending list of non-full column indices. -/
def getValidMoves (b : Board) : List Nat :=
  (List.range 7).filter fun col => !(isColumnFull b (col : Int))

/-- One cell-copy step of `Board.clone`'s inner loop
(`newBoard.grid[row][col] = this.grid[row][col]`). -/
def copyCell (src : Board) (dst : Board) (r : Fin 6) (c : Fin 7) : Board :=
  fun r' c' => if r' = r ∧ c' = c then src r c else dst r' c'

/-- Embeds `Board.clone()`: a fresh board with every cell copied from the
original by the double loop of the source. -/
def clone (b : Board) : Board :=
  (List.finRange 6).foldl
    (fun nb r => (List.finRange 7).foldl (fun nb2 c => copyCell b nb2 r c) nb)
    emptyBoard

/-! ## GameLogic.js -/

/-- Embeds `DIRECTIONS` from GameLogic.js. -/
def DIRECTIONS : List (Int × Int) := [(0, 1), (1, 0), (1, 1), (1, -1)]

/-- Embeds `isValidPosition(row, col)` from GameLogic.js. -/
def isValidPosition (row col : Int) : Prop :=
  0 ≤ row ∧ row < 6 ∧ 0 ≤ col ∧ col < 7

instance (row col : Int) : Decidable (isValidPosition row col) := by
  unfold isValidPosition; infer_instance

/-- One directional `while` loop of `getConnectedPositions`: collect cells
from `(r, c)` onward in steps of `(dr, dc)` while they are in bounds and
hold `player`.  On the 6×7 grid any direction from `DIRECTIONS` moves a
coordinate by 1 each step, so at most 7 iterations can pass the validity
test and fuel 16 never runs out. -/
def walk (b : Board) (r c dr dc : Int) (player : Nat) : Nat → List (Int × Int)
  | 0 => []
  | fuel + 1 =>
    if isValidPosition r c ∧ getCell b r c = some player then
      (r, c) :: walk b (r + dr) (c + dc) dr dc player fuel
    else
      []

/-- Embeds `getConnectedPositions(board, row, col, dRow, dCol, player)`: the
origin plus the positive-direction walk (pushed) and the
negative-direction walk (unshifted, hence reversed). -/
def getConnectedPositions (b : Board) (row col dr dc : Int) (player : Nat) :
    List (Int × Int) :=
  (walk b (row - dr) (col - dc) (-dr) (-dc) player 16).reverse
    ++ (row, col) :: walk b (row + dr) (col + dc) dr dc player 16

/-- The direction loop of `checkWin`. -/
def checkWinAux (b : Board) (row col : Int) (player : Nat) :
    List (Int × Int) → Option (Nat × List (Int × Int))
  | [] => none
  | (dr, dc) :: rest =>
    let positions := getConnectedPositions b row col dr dc player
    if 4 ≤ positions.length then some (player, positions.take 4)
    else checkWinAux b row col player rest

/-- Embeds `checkWin(board, row, col, player)`: win info `(player, positions)` or
`none`. -/
def checkWin (b : Board) (row col : Int) (player : Nat) :
    Option (Nat × List (Int × Int)) :=
  checkWinAux b row col player DIRECTIONS

/-! ## AI.js -/

/-- Embeds `AI_PLAYER` (= `PLAYER_2`). -/
def AI_PLAYER : Nat := 2
/-- Embeds `HUMAN_PLAYER` (= `PLAYER_1`). -/
def HUMAN_PLAYER : Nat := 1
/-- Embeds `SCORE.WIN` from AI.js. -/
def SCORE_WIN : Int := 100000

/-- JS numbers as used by the search: `-Infinity`, finite, `+Infinity`.
All arithmetic in the search stays finite; the infinities only take part
in comparisons (`Math.max` / `Math.min` / `<=` / `>`). -/
inductive XInt where
  | negInf : XInt
  | fin : Int → XInt
  | posInf : XInt
deriving DecidableEq

/-- JS `<=` on search scores. -/
def xle : XInt → XInt → Bool
  | .negInf, _ => true
  | _, .posInf => true
  | .fin a, .fin b => a ≤ b
  | .posInf, _ => false
  | .fin _, .negInf => false

/-- JS `<` (used as `score > bestScore` with arguments flipped). -/
def xlt (a b : XInt) : Bool := !(xle b a)

/-- JS `Math.max`. -/
def xmax (a b : XInt) : XInt := if xle a b then b else a

/-- JS `Math.min`. -/
def xmin (a b : XInt) : XInt := if xle a b then a else b

/-- Embeds `AI.orderMoves`' sort key: `Math.abs(center - a)` with `center = 3`. -/
def centerDist (c : Nat) : Nat := (3 - (c : Int)).natAbs

/-- Stable insertion of a column into an already ordered list: the new
column goes after every column whose center distance is `≤` its own.
`Array.prototype.sort` is stable and `orderMoves` sorts the ascending
valid-move list by center distance, which this reproduces exactly. -/
def insertByDist (c : Nat) : List Nat → List Nat
  | [] => [c]
  | x :: xs => if centerDist x ≤ centerDist c then x :: insertByDist c xs
               else c :: x :: xs

/-- Embeds `AI.orderMoves(moves)`: stable sort by ascending distance from the
center column. -/
def orderMoves (moves : List Nat) : List Nat :=
  moves.foldl (fun acc c => insertByDist c acc) []

/-- One window test of `AI.checkWinner`: `some v` when the four cells
starting at `(row, col)` in direction `(dr, dc)` all hold the same
non-empty value `v`. -/
def winAt (b : Board) (row col dr dc : Int) : Option Nat :=
  match getCell b row col with
  | none => none
  | some v =>
    if v ≠ EMPTY ∧ getCell b (row + dr) (col + dc) = some v ∧
        getCell b (row + 2 * dr) (col + 2 * dc) = some v ∧
        getCell b (row + 3 * dr) (col + 3 * dc) = some v then
      some v
    else none

/-- First `some` produced by a list of window tests. -/
def firstWin (b : Board) : List (Int × Int × Int × Int) → Option Nat
  | [] => none
  | (row, col, dr, dc) :: rest =>
    match winAt b row col dr dc with
    | some v => some v
    | none => firstWin b rest

/-- The scan order of `AI.checkWinner`: horizontal, vertical, diagonal
(positive slope), diagonal (negative slope), each row-major. -/
def winScanList : List (Int × Int × Int × Int) :=
  ((List.range 6).flatMap fun r => (List.range 4).map fun c =>
    ((r : Int), (c : Int), 0, 1))
  ++ ((List.range 7).flatMap fun c => (List.range 3).map fun r =>
    ((r : Int), (c : Int), 1, 0))
  ++ ((List.range 3).flatMap fun r => (List.range 4).map fun c =>
    ((r : Int), (c : Int), 1, 1))
  ++ ((List.range 3).flatMap fun r => (List.range 4).map fun c =>
    ((r + 3 : Int), (c : Int), -1, 1))

/-- Embeds `AI.checkWinner(board)`: full-board scan for four in a row; the first
matching window's common value, else `none`. -/
def checkWinner (b : Board) : Option Nat :=
  firstWin b winScanList

/-- Embeds `AI.isBoardFull(board)` (same computation as `Board.isFull`). -/
def isBoardFull (b : Board) : Bool :=
  (List.range 7).all fun col => isColumnFull b (col : Int)

/-- Embeds `AI.evaluateWindow(window)`: heuristic score of a 4-cell window.
JS window entries are in-bounds `getCell` results, embedded as
`Option Nat` values compared against the players and `EMPTY`. -/
def evaluateWindow (window : List (Option Nat)) : Int :=
  let aiCount := (window.filter (· == some AI_PLAYER)).length
  let humanCount := (window.filter (· == some HUMAN_PLAYER)).length
  let emptyCount := (window.filter (· == some EMPTY)).length
  let s1 : Int :=
    if aiCount = 4 then SCORE_WIN
    else if aiCount = 3 ∧ emptyCount = 1 then 100
    else if aiCount = 2 ∧ emptyCount = 2 then 10
    else 0
  let s2 : Int :=
    if humanCount = 4 then -SCORE_WIN
    else if humanCount = 3 ∧ emptyCount = 1 then -80
    else if humanCount = 2 ∧ emptyCount = 2 then -8
    else 0
  s1 + s2

/-- The four window enumerations of `AI.evaluateAllWindows`, as the list
of window start/direction pairs in scan order. -/
def windowScanList : List (Int × Int × Int × Int) :=
  ((List.range 6).flatMap fun r => (List.range 4).map fun c =>
    ((r : Int), (c : Int), 0, 1))
  ++ ((List.range 7).flatMap fun c => (List.range 3).map fun r =>
    ((r : Int), (c : Int), 1, 0))
  ++ ((List.range 3).flatMap fun r => (List.range 4).map fun c =>
    ((r : Int), (c : Int), 1, 1))
  ++ ((List.range 3).flatMap fun r => (List.range 4).map fun c =>
    ((r + 3 : Int), (c : Int), -1, 1))

/-- Embeds `AI.evaluateAllWindows(board)`. -/
def evaluateAllWindows (b : Board) : Int :=
  windowScanList.foldl
    (fun score w =>
      score + evaluateWindow
        [getCell b w.1 w.2.1,
         getCell b (w.1 + w.2.2.1) (w.2.1 + w.2.2.2),
         getCell b (w.1 + 2 * w.2.2.1) (w.2.1 + 2 * w.2.2.2),
         getCell b (w.1 + 3 * w.2.2.1) (w.2.1 + 3 * w.2.2.2)])
    0

/-- The center-column loop of `AI.evaluateBoard`. -/
def centerScore (b : Board) : Int :=
  (List.range 6).foldl
    (fun score r =>
      if getCell b (r : Int) 3 = some AI_PLAYER then score + 3
      else if getCell b (r : Int) 3 = some HUMAN_PLAYER then score - 3
      else score)
    0

/-- Embeds `AI.evaluateBoard(board)`: center bonus plus all windows. -/
def evaluateBoard (b : Board) : Int :=
  centerScore b + evaluateAllWindows b

/-- The maximizing `for`-loop of `AI.minimax`, with `f` the evaluation of
a child position at the remaining depth.  `break` on `beta <= alpha`
becomes an early return of the running `maxScore`. -/
def maxLoop (f : Board → XInt → XInt → XInt) :
    List Nat → Board → XInt → XInt → XInt → XInt
  | [], _, maxScore, _, _ => maxScore
  | col :: rest, b, maxScore, alpha, beta =>
    let score := f (dropToken (clone b) (col : Int) AI_PLAYER).2 alpha beta
    let maxScore' := xmax maxScore score
    let alpha' := xmax alpha score
    if xle beta alpha' then maxScore'
    else maxLoop f rest b maxScore' alpha' beta

/-- The minimizing `for`-loop of `AI.minimax`. -/
def minLoop (f : Board → XInt → XInt → XInt) :
    List Nat → Board → XInt → XInt → XInt → XInt
  | [], _, minScore, _, _ => minScore
  | col :: rest, b, minScore, alpha, beta =>
    let score := f (dropToken (clone b) (col : Int) HUMAN_PLAYER).2 alpha beta
    let minScore' := xmin minScore score
    let beta' := xmin beta score
    if xle beta' alpha then minScore'
    else minLoop f rest b minScore' alpha beta'

/-- Embeds `AI.minimax(board, depth, alpha, beta, isMaximizing)`. -/
def minimax (b : Board) (depth : Nat) (alpha beta : XInt) (isMax : Bool) :
    XInt :=
  let winner := checkWinner b
  if winner = some AI_PLAYER then .fin (SCORE_WIN + (depth : Int))
  else if winner = some HUMAN_PLAYER then .fin (-SCORE_WIN - (depth : Int))
  else if isBoardFull b then .fin 0
  else
    match depth with
    | 0 => .fin (evaluateBoard b)
    | d + 1 =>
      let orderedMoves := orderMoves (getValidMoves b)
      if isMax then
        maxLoop (fun b2 a2 b3 => minimax b2 d a2 b3 false)
          orderedMoves b .negInf alpha beta
      else
        minLoop (fun b2 a2 b3 => minimax b2 d a2 b3 true)
          orderedMoves b .posInf alpha beta

/-- The best-move `for`-loop of `AI.getBestMove`: update `bestMove` only
on strictly greater score (`score > bestScore`). -/
def bestLoop (b : Board) (d : Nat) :
    List Nat → XInt → Int → Int
  | [], _, bestMove => bestMove
  | col :: rest, bestScore, bestMove =>
    let score :=
      minimax (dropToken (clone b) (col : Int) AI_PLAYER).2 d .negInf .posInf false
    if xlt bestScore score then bestLoop b d rest score (col : Int)
    else bestLoop b d rest bestScore bestMove

/-- Embeds `AI.getBestMove(board)` along its deterministic search path, with the
difficulty tier's depth made an explicit parameter (`DEPTH_CONFIG`).
Returns `-1` with no valid move, the unique valid move immediately, and
otherwise the alpha-beta search result over center-out ordered moves with
`bestMove` initialised to `validMoves[0]`. -/
def getBestMove (b : Board) (depth : Nat) : Int :=
  let validMoves := getValidMoves b
  match validMoves with
  | [] => -1
  | [c] => (c : Int)
  | c :: _ :: _ =>
    bestLoop b (depth - 1) (orderMoves validMoves) .negInf (c : Int)

/-! ### The unpruned search (refinement target of the spec)

The spec calls alpha-beta cutting "a correctness-preserving optimization
only, never changes the final chosen value versus an unpruned search".
The following definitions are the spec's comparison object: the same
search with the alpha-beta parameters and the cutoffs removed, and
everything else identical. -/

/-- Maximizing loop of the unpruned minimax. -/
def maxLoopNoPrune (f : Board → XInt) :
    List Nat → Board → XInt → XInt
  | [], _, maxScore => maxScore
  | col :: rest, b, maxScore =>
    maxLoopNoPrune f rest b
      (xmax maxScore (f (dropToken (clone b) (col : Int) AI_PLAYER).2))

/-- Minimizing loop of the unpruned minimax. -/
def minLoopNoPrune (f : Board → XInt) :
    List Nat → Board → XInt → XInt
  | [], _, minScore => minScore
  | col :: rest, b, minScore =>
    minLoopNoPrune f rest b
      (xmin minScore (f (dropToken (clone b) (col : Int) HUMAN_PLAYER).2))

/-- The otherwise-identical unpruned minimax. -/
def minimaxNoPrune (b : Board) (depth : Nat) (isMax : Bool) : XInt :=
  let winner := checkWinner b
  if winner = some AI_PLAYER then .fin (SCORE_WIN + (depth : Int))
  else if winner = some HUMAN_PLAYER then .fin (-SCORE_WIN - (depth : Int))
  else if isBoardFull b then .fin 0
  else
    match depth with
    | 0 => .fin (evaluateBoard b)
    | d + 1 =>
      let orderedMoves := orderMoves (getValidMoves b)
      if isMax then
        maxLoopNoPrune (fun b2 => minimaxNoPrune b2 d false)
          orderedMoves b .negInf
      else
        minLoopNoPrune (fun b2 => minimaxNoPrune b2 d true)
          orderedMoves b .posInf

/-- Best-move loop over unpruned child values. -/
def bestLoopNoPrune (b : Board) (d : Nat) :
    List Nat → XInt → Int → Int
  | [], _, bestMove => bestMove
  | col :: rest, bestScore, bestMove =>
    let score :=
      minimaxNoPrune (dropToken (clone b) (col : Int) AI_PLAYER).2 d false
    if xlt bestScore score then bestLoopNoPrune b d rest score (col : Int)
    else bestLoopNoPrune b d rest bestScore bestMove

/-- Version of `getBestMove` driven by the unpruned minimax. -/
def getBestMoveNoPrune (b : Board) (depth : Nat) : Int :=
  let validMoves := getValidMoves b
  match validMoves with
  | [] => -1
  | [c] => (c : Int)
  | c :: _ :: _ =>
    bestLoopNoPrune b (depth - 1) (orderMoves validMoves) .negInf (c : Int)

/-! ## Auxiliary definitions for the verification -/

/-- The gravity invariant of §3 of the spec: in every column, an empty
cell has only empty cells above it. -/
def Gravity (b : Board) : Prop :=
  ∀ (c : Fin 7) (r1 r2 : Fin 6), r1 ≤ r2 → b r1 c = EMPTY → b r2 c = EMPTY

instance (b : Board) : Decidable (Gravity b) := by
  unfold Gravity
  infer_instance

/-- Three tokens of side 1 at rows 0–2 of column 0. -/
def bThreeInColumn : Board := fun r c => if c.val = 0 ∧ r.val < 3 then 1 else 0

/-- Three tokens of side 1 at columns 0–2 of row 0. -/
def bThreeInRow : Board := fun r c => if r.val = 0 ∧ c.val < 3 then 1 else 0

/-- Four tokens of side 1 at columns 0–3 of row 0. -/
def bWinRow : Board := fun r c => if r.val = 0 ∧ c.val < 4 then 1 else 0

/-- A full drawn board: no empty cell and no four in a row. -/
def bFullDraw : Board := fun r c =>
  let base := if r.val = 2 ∨ r.val = 3 then 2 else 1
  if c.val % 2 = 0 then base else 3 - base

/-- Board `bFullDraw` with the top cell of column 6 cleared: exactly one valid
move. -/
def bOneMove : Board := fun r c =>
  if c.val = 6 ∧ r.val = 5 then 0 else bFullDraw r c

/-- Four tokens of the engine side at columns 0–3 of row 0. -/
def bWinRowAI : Board := fun r c => if r.val = 0 ∧ c.val < 4 then 2 else 0

/-- Relation stating that `r` is the fail-soft alpha-beta result of a node whose unpruned value
is `v`, over window `(alpha, beta)`: outside the window it is a sound
bound, inside it is exact. -/
def Approx (r v alpha beta : XInt) : Prop :=
  (xle r alpha = true → xle v r = true) ∧
  (xle r alpha = false → xle beta r = false → r = v) ∧
  (xle beta r = true → xle r v = true)

/-- State-passing form of the best-move loop: alongside the running best
move it returns the final state of the `board` argument.  In the source
each iteration applies `clone` to `board` and `dropToken` to the clone
only, so `board` is threaded through unchanged. -/
def bestLoopSt (b : Board) (d : Nat) :
    List Nat → XInt → Int → Int × Board
  | [], _, bestMove => (bestMove, b)
  | col :: rest, bestScore, bestMove =>
    let boardCopy := clone b
    let score :=
      minimax (dropToken boardCopy (col : Int) AI_PLAYER).2 d .negInf .posInf false
    if xlt bestScore score then bestLoopSt b d rest score (col : Int)
    else bestLoopSt b d rest bestScore bestMove

/-- State-passing form of `AI.getBestMove`: the chosen column together
with the final state of the caller's board. -/
def getBestMoveSt (b : Board) (depth : Nat) : Int × Board :=
  let validMoves := getValidMoves b
  match validMoves with
  | [] => (-1, b)
  | [c] => ((c : Int), b)
  | c :: _ :: _ =>
    bestLoopSt b (depth - 1) (orderMoves validMoves) .negInf (c : Int)

/-- The score the top-level best-move loop computes for column `c`: the
full-window minimax value of the position after the engine's hypothetical
move in `c` on a clone. -/
def rootScore (b : Board) (d : Nat) (c : Nat) : XInt :=
  minimax (dropToken (clone b) (c : Int) AI_PLAYER).2 d .negInf .posInf false

/-! ## Order lemmas for `XInt` -/

theorem xle_refl (a : XInt) : xle a a = true := by
  cases a <;> simp [xle]

theorem xle_trans {a b c : XInt} (h1 : xle a b = true) (h2 : xle b c = true) :
    xle a c = true := by
  cases a <;> cases b <;> cases c <;> simp_all [xle] <;> omega

theorem xle_of_not_xle {a b : XInt} (h : xle a b = false) : xle b a = true := by
  cases a <;> cases b <;> simp_all [xle] <;> omega

theorem xle_antisymm {a b : XInt} (h1 : xle a b = true) (h2 : xle b a = true) :
    a = b := by
  cases a <;> cases b <;> simp_all [xle] <;> omega

theorem xle_bot (a : XInt) : xle .negInf a = true := by cases a <;> simp [xle]

theorem xle_top (a : XInt) : xle a .posInf = true := by cases a <;> simp [xle]

theorem eq_bot_of_xle_bot {a : XInt} (h : xle a .negInf = true) : a = .negInf := by
  cases a <;> simp_all [xle]

theorem eq_top_of_top_xle {a : XInt} (h : xle .posInf a = true) : a = .posInf := by
  cases a <;> simp_all [xle]

theorem xle_xmax_iff {r a b : XInt} :
    xle r (xmax a b) = true ↔ (xle r a = true ∨ xle r b = true) := by
  unfold xmax
  by_cases h : xle a b = true
  · simp only [h, if_true]
    exact ⟨fun hb => Or.inr hb, fun hor => hor.elim (fun ha => xle_trans ha h) id⟩
  · simp only [h, if_false]
    have hba := xle_of_not_xle (by simpa using h)
    exact ⟨fun ha => Or.inl ha, fun hor => hor.elim id (fun hb => xle_trans hb hba)⟩

theorem xmax_xle_iff {a b r : XInt} :
    xle (xmax a b) r = true ↔ (xle a r = true ∧ xle b r = true) := by
  unfold xmax
  by_cases h : xle a b = true
  · simp only [h, if_true]
    exact ⟨fun hb => ⟨xle_trans h hb, hb⟩, fun hand => hand.2⟩
  · simp only [h, if_false]
    have hba := xle_of_not_xle (by simpa using h)
    exact ⟨fun ha => ⟨ha, xle_trans hba ha⟩, fun hand => hand.1⟩

theorem xmin_xle_iff {a b r : XInt} :
    xle (xmin a b) r = true ↔ (xle a r = true ∨ xle b r = true) := by
  unfold xmin
  by_cases h : xle a b = true
  · simp only [h, if_true]
    exact ⟨fun ha => Or.inl ha, fun hor => hor.elim id (fun hb => xle_trans h hb)⟩
  · simp only [h, if_false]
    have hba := xle_of_not_xle (by simpa using h)
    exact ⟨fun hb => Or.inr hb, fun hor => hor.elim (fun ha => xle_trans hba ha) id⟩

theorem xle_xmin_iff {r a b : XInt} :
    xle r (xmin a b) = true ↔ (xle r a = true ∧ xle r b = true) := by
  unfold xmin
  by_cases h : xle a b = true
  · simp only [h, if_true]
    exact ⟨fun ha => ⟨ha, xle_trans ha h⟩, fun hand => hand.1⟩
  · simp only [h, if_false]
    have hba := xle_of_not_xle (by simpa using h)
    exact ⟨fun hb => ⟨xle_trans hb hba, hb⟩, fun hand => hand.2⟩

theorem xmax_bot (a : XInt) : xmax .negInf a = a := by
  simp [xmax, xle_bot]

theorem xmin_top (a : XInt) : xmin .posInf a = a := by
  unfold xmin
  by_cases h : xle .posInf a = true
  · simp [h, eq_top_of_top_xle h]
  · simp [h]

theorem xmax_comm (a b : XInt) : xmax a b = xmax b a := by
  by_cases h1 : xle a b = true <;> by_cases h2 : xle b a = true
  · have hab := xle_antisymm h1 h2
    rw [hab]
  · simp [xmax, h1, h2]
  · simp [xmax, h1, h2]
  · exact absurd (xle_of_not_xle (by simpa using h1)) h2

theorem xmax_assoc (a b c : XInt) : xmax (xmax a b) c = xmax a (xmax b c) := by
  by_cases hab : xle a b = true <;> by_cases hbc : xle b c = true
  · simp [xmax, hab, hbc, xle_trans hab hbc]
  · simp [xmax, hab, hbc]
  · simp [xmax, hab, hbc]
  · have hba := xle_of_not_xle (by simpa using hab)
    have hcb := xle_of_not_xle (by simpa using hbc)
    by_cases hac : xle a c = true
    · exfalso
      have hca : a = c := xle_antisymm hac (xle_trans hcb hba)
      exact absurd (hca ▸ hba) hbc
    · simp [xmax, hab, hbc, hac]

theorem xmin_assoc (a b c : XInt) : xmin (xmin a b) c = xmin a (xmin b c) := by
  unfold xmin
  by_cases hab : xle a b = true <;> by_cases hbc : xle b c = true <;>
    simp only [hab, hbc, if_true, if_false]
  · simp [xle_trans hab hbc]
  · rfl
  · simp [hbc, hab]
  · have hcb := xle_of_not_xle (by simpa using hbc)
    have hac : xle a c = false := by
      by_contra hac
      simp only [Bool.not_eq_false] at hac
      exact absurd (xle_trans hac hcb) (by simp [hab])
    simp [hac, hbc]

/-! ## Basic board lemmas -/

theorem clone_row_get (src : Board) (dst : Board) (r : Fin 6)
    (cs : List (Fin 7)) (r' : Fin 6) (c' : Fin 7) :
    (cs.foldl (fun d c => copyCell src d r c) dst) r' c'
      = if r' = r ∧ c' ∈ cs then src r' c' else dst r' c' := by
  induction cs generalizing dst with
  | nil => simp
  | cons c cs ih =>
    simp only [List.foldl_cons, ih, List.mem_cons]
    by_cases hr : r' = r
    · subst hr
      by_cases hc : c' ∈ cs
      · simp [hc]
      · by_cases hcc : c' = c
        · subst hcc; simp [hc, copyCell]
        · simp [hc, hcc, copyCell]
    · simp [hr, copyCell]

theorem clone_get (src : Board) (dst : Board) (rs : List (Fin 6))
    (r' : Fin 6) (c' : Fin 7) :
    (rs.foldl
      (fun d r => (List.finRange 7).foldl (fun d2 c => copyCell src d2 r c) d)
      dst) r' c'
      = if r' ∈ rs then src r' c' else dst r' c' := by
  induction rs generalizing dst with
  | nil => simp
  | cons r rs ih =>
    simp only [List.foldl_cons, ih, List.mem_cons]
    by_cases hr : r' ∈ rs
    · simp [hr]
    · by_cases hrr : r' = r
      · subst hrr; simp [hr, clone_row_get, List.mem_finRange]
      · simp [hr, hrr, clone_row_get]

/-- The operation `clone()` produces a board equal in content to the original: as pure
values they coincide. -/
theorem clone_eq (b : Board) : clone b = b := by
  funext r c
  unfold clone
  rw [clone_get]
  simp [List.mem_finRange]

theorem findFrom_mem {b : Board} {c : Fin 7} {l : List (Fin 6)} {r : Fin 6}
    (h : findFrom b c l = some r) : r ∈ l ∧ b r c = EMPTY := by
  induction l with
  | nil => simp [findFrom] at h
  | cons x xs ih =>
    by_cases hx : b x c = EMPTY
    · simp [findFrom, hx] at h
      subst h; exact ⟨List.mem_cons_self _ _, hx⟩
    · simp [findFrom, hx] at h
      rcases ih h with ⟨hm, he⟩
      exact ⟨List.mem_cons_of_mem _ hm, he⟩

theorem findFrom_first {b : Board} {c : Fin 7} {l : List (Fin 6)} {r : Fin 6}
    (hs : l.Pairwise (· < ·)) (h : findFrom b c l = some r) :
    ∀ r' ∈ l, r' < r → b r' c ≠ EMPTY := by
  induction l with
  | nil => simp [findFrom] at h
  | cons x xs ih =>
    rcases List.pairwise_cons.mp hs with ⟨hx, hxs⟩
    by_cases hxe : b x c = EMPTY
    · simp [findFrom, hxe] at h
      subst h
      intro r' hr' hlt
      rcases List.mem_cons.mp hr' with rfl | hmem
      · exact absurd hlt (lt_irrefl _)
      · exact absurd hlt (not_lt_of_gt (hx _ hmem))
    · simp [findFrom, hxe] at h
      intro r' hr' hlt
      rcases List.mem_cons.mp hr' with rfl | hmem
      · exact hxe
      · exact ih hxs h r' hmem hlt

theorem findFrom_none {b : Board} {c : Fin 7} {l : List (Fin 6)}
    (h : findFrom b c l = none) : ∀ r ∈ l, b r c ≠ EMPTY := by
  induction l with
  | nil => simp
  | cons x xs ih =>
    by_cases hx : b x c = EMPTY
    · simp [findFrom, hx] at h
    · simp [findFrom, hx] at h
      intro r hr
      rcases List.mem_cons.mp hr with rfl | hmem
      · exact hx
      · exact ih h r hmem

theorem getCell_coe (b : Board) (r : Fin 6) (c : Fin 7) :
    getCell b (r : Int) (c : Int) = some (b r c) := by
  unfold getCell
  have h : (0 : Int) ≤ (r : Int) ∧ (r : Int) < 6 ∧ (0 : Int) ≤ (c : Int) ∧ (c : Int) < 7 := by
    refine ⟨by positivity, ?_, by positivity, ?_⟩ <;> exact_mod_cast Fin.is_lt _
  rw [dif_pos h]
  congr 1 <;> apply congrArg <;> apply Fin.ext <;> simp

theorem getCell_none {b : Board} {row col : Int}
    (h : ¬(0 ≤ row ∧ row < 6 ∧ 0 ≤ col ∧ col < 7)) :
    getCell b row col = none := by
  unfold getCell
  rw [dif_neg h]

theorem getCell_setCell (b : Board) (r : Fin 6) (c : Fin 7) (v : Nat)
    (p q : Int) :
    getCell (setCell b (r : Int) (c : Int) v) p q
      = if p = (r : Int) ∧ q = (c : Int) then some v else getCell b p q := by
  have hrc : (0 : Int) ≤ (r : Int) ∧ (r : Int) < 6 ∧ (0 : Int) ≤ (c : Int) ∧ (c : Int) < 7 := by
    refine ⟨by positivity, ?_, by positivity, ?_⟩ <;> exact_mod_cast Fin.is_lt _
  by_cases hpq : 0 ≤ p ∧ p < 6 ∧ 0 ≤ q ∧ q < 7
  · unfold getCell setCell
    rw [dif_pos hpq, dif_pos hrc, dif_pos hpq]
    by_cases he : p = (r : Int) ∧ q = (c : Int)
    · rw [if_pos he, if_pos]
      constructor <;> apply Fin.ext <;> simp <;> omega
    · rw [if_neg he, if_neg]
      intro hcon
      apply he
      rcases hcon with ⟨h1, h2⟩
      have e1 : p.toNat = ((r : Int)).toNat := congrArg Fin.val h1
      have e2 : q.toNat = ((c : Int)).toNat := congrArg Fin.val h2
      have e3 : ((r : Int)).toNat = r.val := by simp
      have e4 : ((c : Int)).toNat = c.val := by simp
      have e5 : (r : Int) = (r.val : Int) := rfl
      have e6 : (c : Int) = (c.val : Int) := rfl
      rw [e5, e6]
      constructor <;> omega
  · have h1 : ¬(p = (r : Int) ∧ q = (c : Int)) := by
      intro hcon
      exact hpq (hcon.1 ▸ hcon.2 ▸ hrc)
    rw [if_neg h1, getCell_none hpq, getCell_none hpq]

theorem finRange_pairwise : (List.finRange 6).Pairwise (· < ·) := by decide

/-- Characterization of `findLowestRow` on a non-full column: it returns
the least row holding `EMPTY`. -/
theorem findLowestRow_of_not_full {b : Board} {col : Int}
    (h : isColumnFull b col = false) :
    ∃ (cF : Fin 7) (r : Fin 6), col = (cF : Int) ∧
      findLowestRow b col = (r : Int) ∧ b r cF = EMPTY ∧
      ∀ r' : Fin 6, r' < r → b r' cF ≠ EMPTY := by
  have hne : findLowestRow b col ≠ -1 := by
    intro hc
    simp [isColumnFull, hc] at h
  by_cases hc : 0 ≤ col ∧ col < 7
  · have hcol7 : col.toNat < 7 := by omega
    have hdef : findLowestRow b col =
        match findFrom b ⟨col.toNat, hcol7⟩ (List.finRange 6) with
        | some r => (r : Int)
        | none => -1 := by
      unfold findLowestRow
      rw [dif_pos hc]
    rcases hf : findFrom b ⟨col.toNat, hcol7⟩ (List.finRange 6) with _ | r
    · rw [hdef, hf] at hne
      simp at hne
    · refine ⟨⟨col.toNat, hcol7⟩, r, ?_, by rw [hdef, hf], (findFrom_mem hf).2, ?_⟩
      · show col = ((col.toNat : Nat) : Int)
        omega
      · intro r' hr'
        exact findFrom_first finRange_pairwise hf r' (List.mem_finRange r') hr'
  · exfalso
    apply hne
    unfold findLowestRow
    rw [dif_neg hc]

/-- C2 helper: on a full (or out-of-bounds) column `dropToken` returns
`-1` and the unchanged board. -/
theorem dropToken_full {b : Board} {col : Int} {side : Nat}
    (h : isColumnFull b col = true) : dropToken b col side = (-1, b) := by
  have : findLowestRow b col = -1 := by
    simpa [isColumnFull] using h
  simp [dropToken, this]

theorem coe_fin_int_inj {n : Nat} {a b : Fin n} (h : (a : Int) = (b : Int)) :
    a = b := by
  apply Fin.ext
  exact_mod_cast h

theorem setCell_fin_apply (b : Board) (rS : Fin 6) (cS : Fin 7) (v : Nat)
    (r : Fin 6) (c : Fin 7) :
    setCell b (rS : Int) (cS : Int) v r c
      = if r = rS ∧ c = cS then v else b r c := by
  have h1 := getCell_setCell b rS cS v (r : Int) (c : Int)
  rw [getCell_coe] at h1
  have hiff : ((r : Int) = (rS : Int) ∧ (c : Int) = (cS : Int)) ↔ (r = rS ∧ c = cS) := by
    constructor
    · rintro ⟨h2, h3⟩
      exact ⟨coe_fin_int_inj h2, coe_fin_int_inj h3⟩
    · rintro ⟨rfl, rfl⟩
      exact ⟨rfl, rfl⟩
  by_cases he : r = rS ∧ c = cS
  · rw [if_pos (hiff.mpr he)] at h1
    rw [if_pos he]
    exact Option.some.inj h1
  · rw [if_neg (fun hcon => he (hiff.mp hcon)), getCell_coe] at h1
    rw [if_neg he]
    exact Option.some.inj h1

/-- C2.  If the column is not full, `dropToken` places `side` at the
lowest previously-empty row of the column, returns that row, and changes
no other cell; on a full column it returns `-1` and leaves the board
unmodified. -/
theorem dropToken_correct (b : Board) (col : Int) (side : Nat)
    (hside : side = PLAYER_1 ∨ side = PLAYER_2) :
    (isColumnFull b col = false →
      ∃ r : Fin 6,
        (dropToken b col side).1 = (r : Int) ∧
        findLowestRow b col = (r : Int) ∧
        getCell b (r : Int) col = some EMPTY ∧
        some side ≠ some EMPTY ∧
        (∀ r' : Int, 0 ≤ r' → r' < (r : Int) → getCell b r' col ≠ some EMPTY) ∧
        getCell (dropToken b col side).2 (r : Int) col = some side ∧
        (∀ p q : Int, ¬(p = (r : Int) ∧ q = col) →
          getCell (dropToken b col side).2 p q = getCell b p q)) ∧
    (isColumnFull b col = true → dropToken b col side = (-1, b)) := by
  constructor
  · intro hnf
    obtain ⟨cF, rS, hcol, hflr, hemp, hmin⟩ := findLowestRow_of_not_full hnf
    have hrow : (dropToken b col side) = ((rS : Int), setCell b (rS : Int) col side) := by
      unfold dropToken
      rw [hflr]
      rw [if_neg (by omega)]
    refine ⟨rS, by rw [hrow], hflr, ?_, ?_, ?_, ?_, ?_⟩
    · rw [hcol, getCell_coe, hemp]
    · intro hcon
      simp only [Option.some.injEq] at hcon
      rcases hside with h | h <;> rw [h] at hcon <;>
        simp [PLAYER_1, PLAYER_2, EMPTY] at hcon
    · intro r' h0 hlt hcon
      have hr6 : r'.toNat < 6 := by
        have := rS.is_lt
        omega
      have hr'eq : r' = ((⟨r'.toNat, hr6⟩ : Fin 6) : Int) := by
        show r' = ((r'.toNat : Nat) : Int)
        omega
      rw [hr'eq, hcol, getCell_coe] at hcon
      have hltF : (⟨r'.toNat, hr6⟩ : Fin 6) < rS := by
        have : ((rS : Nat) : Int) = (rS : Int) := rfl
        simp only [Fin.lt_def]
        omega
      exact hmin _ hltF (Option.some.inj hcon)
    · rw [hrow, hcol]
      rw [show ((rS : Int), setCell b (rS : Int) ((cF : Nat) : Int) side).2
            = setCell b (rS : Int) (cF : Int) side from rfl]
      rw [getCell_setCell]
      rw [if_pos ⟨rfl, rfl⟩]
    · intro p q hne
      rw [hrow, hcol]
      rw [show ((rS : Int), setCell b (rS : Int) ((cF : Nat) : Int) side).2
            = setCell b (rS : Int) (cF : Int) side from rfl]
      rw [getCell_setCell]
      rw [if_neg (by rw [hcol] at hne; exact hne)]
  · exact dropToken_full


/-- C9.  A successful `dropToken` preserves the gravity invariant and
never turns an occupied cell back to `EMPTY` (occupied cells are left
exactly as they were). -/
theorem dropToken_gravity (b : Board) (col : Int) (side : Nat)
    (hg : Gravity b) (hside : side ≠ EMPTY)
    (hnf : isColumnFull b col = false) :
    Gravity (dropToken b col side).2 ∧
    ∀ (r : Fin 6) (c : Fin 7), b r c ≠ EMPTY →
      (dropToken b col side).2 r c = b r c := by
  obtain ⟨cF, rS, hcol, hflr, hemp, hmin⟩ := findLowestRow_of_not_full hnf
  have hrow : (dropToken b col side) = ((rS : Int), setCell b (rS : Int) col side) := by
    unfold dropToken
    rw [hflr]
    rw [if_neg (by omega)]
  have happ : ∀ (r : Fin 6) (c : Fin 7),
      (dropToken b col side).2 r c = if r = rS ∧ c = cF then side else b r c := by
    intro r c
    rw [hrow, hcol]
    exact setCell_fin_apply b rS cF side r c
  constructor
  · intro c r1 r2 h12 h1
    rw [happ] at h1 ⊢
    by_cases hc : c = cF
    · subst hc
      have hr1 : r1 ≠ rS := by
        intro hr
        rw [if_pos ⟨hr, rfl⟩] at h1
        exact hside h1
      rw [if_neg (by simp [hr1])] at h1
      have hr1S : rS ≤ r1 := by
        by_contra hlt
        exact hmin r1 (not_le.mp hlt) h1
      have hr2 : r2 ≠ rS := by
        intro hr
        apply hr1
        apply Fin.ext
        have h1v : rS.val ≤ r1.val := hr1S
        have h2v : r1.val ≤ r2.val := h12
        have h3v : r2.val = rS.val := congrArg Fin.val hr
        omega
      rw [if_neg (by simp [hr2])]
      exact hg _ r1 r2 h12 h1
    · rw [if_neg (by simp [hc])] at h1
      rw [if_neg (by simp [hc])]
      exact hg c r1 r2 h12 h1
  · intro r c hocc
    rw [happ]
    rw [if_neg ?_]
    rintro ⟨rfl, rfl⟩
    exact hocc hemp

set_option maxRecDepth 40000 in
/-- Witness for C2 at a concrete input: dropping into column 3 of the
empty board. -/
theorem dropToken_correct_witness :
    isColumnFull emptyBoard 3 = false ∧
    (∃ r : Fin 6,
      (dropToken emptyBoard 3 2).1 = (r : Int) ∧
      findLowestRow emptyBoard 3 = (r : Int) ∧
      getCell emptyBoard (r : Int) 3 = some EMPTY ∧
      some 2 ≠ some EMPTY ∧
      (∀ r' : Int, 0 ≤ r' → r' < (r : Int) →
        getCell emptyBoard r' 3 ≠ some EMPTY) ∧
      getCell (dropToken emptyBoard 3 2).2 (r : Int) 3 = some 2 ∧
      (∀ p q : Int, ¬(p = (r : Int) ∧ q = 3) →
        getCell (dropToken emptyBoard 3 2).2 p q = getCell emptyBoard p q)) :=
  ⟨by decide, (dropToken_correct emptyBoard 3 2 (Or.inr rfl)).1 (by decide)⟩

set_option maxRecDepth 40000 in
/-- Witness for C9 at a concrete input. -/
theorem dropToken_gravity_witness :
    Gravity emptyBoard ∧ (2 : Nat) ≠ EMPTY ∧
    isColumnFull emptyBoard 0 = false ∧
    (Gravity (dropToken emptyBoard 0 2).2 ∧
      ∀ (r : Fin 6) (c : Fin 7), emptyBoard r c ≠ EMPTY →
        (dropToken emptyBoard 0 2).2 r c = emptyBoard r c) :=
  ⟨by decide, by decide, by decide,
   dropToken_gravity emptyBoard 0 2 (by decide) (by decide) (by decide)⟩

/-! ## Lemmas about the win-detector walks -/

theorem walk_mem {b : Board} {dr dc : Int} {player : Nat} :
    ∀ (fuel : Nat) (r c : Int) (q : Int × Int),
      q ∈ walk b r c dr dc player fuel →
      isValidPosition q.1 q.2 ∧ getCell b q.1 q.2 = some player := by
  intro fuel
  induction fuel with
  | zero => intro r c q hq; simp [walk] at hq
  | succ n ih =>
    intro r c q hq
    unfold walk at hq
    split at hq
    · rcases List.mem_cons.mp hq with rfl | hmem
      · assumption
      · exact ih _ _ _ hmem
    · simp at hq

theorem walk_get {b : Board} {dr dc : Int} {player : Nat} :
    ∀ (fuel : Nat) (r c : Int) (i : Nat)
      (hi : i < (walk b r c dr dc player fuel).length),
      (walk b r c dr dc player fuel).get ⟨i, hi⟩
        = (r + (i : Int) * dr, c + (i : Int) * dc) := by
  intro fuel
  induction fuel with
  | zero => intro r c i hi; simp [walk] at hi
  | succ n ih =>
    intro r c i hi
    by_cases hcond : isValidPosition r c ∧ getCell b r c = some player
    · have hwe : walk b r c dr dc player (n + 1)
          = (r, c) :: walk b (r + dr) (c + dc) dr dc player n := by
        simp only [walk]
        rw [if_pos hcond]
      rw [List.get_of_eq hwe]
      match i with
      | 0 => simp
      | j + 1 =>
        have hj : j < (walk b (r + dr) (c + dc) dr dc player n).length := by
          have := hi
          rw [hwe] at this
          simpa using this
        show (walk b (r + dr) (c + dc) dr dc player n).get ⟨j, hj⟩ = _
        rw [ih (r + dr) (c + dc) j hj]
        simp only [Prod.mk.injEq]
        push_cast
        constructor <;> ring
    · simp only [walk, if_neg hcond] at hi
      simp at hi

theorem gcp_length (b : Board) (row col dr dc : Int) (player : Nat) :
    (getConnectedPositions b row col dr dc player).length
      = (walk b (row - dr) (col - dc) (-dr) (-dc) player 16).length
        + (1 + (walk b (row + dr) (col + dc) dr dc player 16).length) := by
  simp [getConnectedPositions]
  omega

/-- Every entry of `getConnectedPositions` lies on the axis through the
origin, at signed offset `i - n` from it, where `n` is the length of the
negative-direction walk: the list is in negative-to-positive connection
order. -/
theorem gcp_get (b : Board) (row col dr dc : Int) (player : Nat)
    (i : Nat) (hi : i < (getConnectedPositions b row col dr dc player).length) :
    (getConnectedPositions b row col dr dc player).get ⟨i, hi⟩
      = (row + ((i : Int)
            - ((walk b (row - dr) (col - dc) (-dr) (-dc) player 16).length : Int)) * dr,
         col + ((i : Int)
            - ((walk b (row - dr) (col - dc) (-dr) (-dc) player 16).length : Int)) * dc) := by
  have hlen := gcp_length b row col dr dc player
  rw [List.get_eq_getElem, List.getElem_eq_iff]
  unfold getConnectedPositions
  by_cases h1 : i < (walk b (row - dr) (col - dc) (-dr) (-dc) player 16).length
  · rw [List.getElem?_append_left (by simpa using h1)]
    rw [List.getElem?_reverse (by simpa using h1)]
    simp only [List.length_reverse]
    have hj : (walk b (row - dr) (col - dc) (-dr) (-dc) player 16).length - 1 - i
        < (walk b (row - dr) (col - dc) (-dr) (-dc) player 16).length := by omega
    rw [List.getElem?_eq_getElem hj]
    have hw := walk_get 16 (row - dr) (col - dc)
      ((walk b (row - dr) (col - dc) (-dr) (-dc) player 16).length - 1 - i) hj
    rw [List.get_eq_getElem] at hw
    rw [hw]
    have hcast : (((walk b (row - dr) (col - dc) (-dr) (-dc) player 16).length - 1 - i : Nat) : Int)
        = ((walk b (row - dr) (col - dc) (-dr) (-dc) player 16).length : Int) - 1 - (i : Int) := by
      omega
    rw [hcast]
    simp only [Option.some.injEq, Prod.mk.injEq]
    constructor <;> ring
  · push_neg at h1
    rw [List.getElem?_append_right (by simpa using h1)]
    simp only [List.length_reverse]
    rcases hj : i - (walk b (row - dr) (col - dc) (-dr) (-dc) player 16).length with _ | k
    · rw [List.getElem?_cons_zero]
      have hieq : (i : Int)
          = ((walk b (row - dr) (col - dc) (-dr) (-dc) player 16).length : Int) := by omega
      rw [hieq]
      simp only [Option.some.injEq, Prod.mk.injEq]
      constructor <;> ring
    · rw [List.getElem?_cons_succ]
      have hk : k < (walk b (row + dr) (col + dc) dr dc player 16).length := by
        rw [gcp_length] at hi
        omega
      rw [List.getElem?_eq_getElem hk]
      have hw := walk_get 16 (row + dr) (col + dc) k hk
      rw [List.get_eq_getElem] at hw
      rw [hw]
      have hieq : (i : Int)
          = ((walk b (row - dr) (col - dc) (-dr) (-dc) player 16).length : Int)
            + (k : Int) + 1 := by omega
      rw [hieq]
      simp only [Option.some.injEq, Prod.mk.injEq]
      constructor <;> ring

theorem checkWinAux_none_iff (b : Board) (row col : Int) (player : Nat) :
    ∀ l, checkWinAux b row col player l = none ↔
      ∀ d ∈ l, (getConnectedPositions b row col d.1 d.2 player).length < 4 := by
  intro l
  induction l with
  | nil => simp [checkWinAux]
  | cons d rest ih =>
    obtain ⟨dr, dc⟩ := d
    by_cases h4 : 4 ≤ (getConnectedPositions b row col dr dc player).length
    · simp only [checkWinAux, if_pos h4]
      constructor
      · intro hcon
        exact absurd hcon (Option.some_ne_none _)
      · intro hall
        have := hall (dr, dc) (List.mem_cons_self _ _)
        dsimp only at this
        omega
    · simp only [checkWinAux, if_neg h4]
      rw [ih]
      constructor
      · intro hall d hd
        rcases List.mem_cons.mp hd with rfl | hmem
        · dsimp only
          omega
        · exact hall d hmem
      · intro hall d hd
        exact hall d (List.mem_cons_of_mem _ hd)

theorem checkWinAux_some (b : Board) (row col : Int) (player : Nat) :
    ∀ l res, checkWinAux b row col player l = some res →
      ∃ dr dc, (dr, dc) ∈ l ∧
        4 ≤ (getConnectedPositions b row col dr dc player).length ∧
        res = (player, (getConnectedPositions b row col dr dc player).take 4) := by
  intro l
  induction l with
  | nil => intro res hres; simp [checkWinAux] at hres
  | cons d rest ih =>
    obtain ⟨dr, dc⟩ := d
    intro res hres
    by_cases h4 : 4 ≤ (getConnectedPositions b row col dr dc player).length
    · simp only [checkWinAux, if_pos h4] at hres
      exact ⟨dr, dc, List.mem_cons_self _ _, h4, (Option.some.inj hres).symm⟩
    · simp only [checkWinAux, if_neg h4] at hres
      obtain ⟨dr', dc', hmem, h4', heq⟩ := ih res hres
      exact ⟨dr', dc', List.mem_cons_of_mem _ hmem, h4', heq⟩

/-- Every coordinate of a returned line other than the origin is an
in-bounds cell holding the queried side (the origin itself is included
without ever being inspected). -/
theorem checkWin_members {b : Board} {row col : Int} {player : Nat}
    {res : Nat × List (Int × Int)} (h : checkWin b row col player = some res) :
    ∀ q ∈ res.2, q ≠ (row, col) →
      isValidPosition q.1 q.2 ∧ getCell b q.1 q.2 = some player := by
  obtain ⟨dr, dc, hmem, h4, heq⟩ := checkWinAux_some b row col player DIRECTIONS res h
  subst heq
  intro q hq hne
  dsimp only at hq
  have hq2 : q ∈ getConnectedPositions b row col dr dc player :=
    List.mem_of_mem_take hq
  unfold getConnectedPositions at hq2
  rcases List.mem_append.mp hq2 with hq3 | hq3
  · exact walk_mem 16 _ _ q (List.mem_reverse.mp hq3)
  · rcases List.mem_cons.mp hq3 with rfl | hq4
    · exact absurd rfl hne
    · exact walk_mem 16 _ _ q hq4

/-- C3.  `checkWin` returns `none` exactly when no axis collects 4 or
more coordinates; a returned `LineResult` carries the queried player and
exactly the first 4 collected coordinates of some axis, consecutive along
that axis in negative-to-positive connection order. -/
theorem checkWin_characterization (b : Board) (row col : Int) (player : Nat) :
    (checkWin b row col player = none ↔
      ∀ d ∈ DIRECTIONS,
        (getConnectedPositions b row col d.1 d.2 player).length < 4) ∧
    ∀ res, checkWin b row col player = some res →
      res.1 = player ∧
      ∃ dr dc, (dr, dc) ∈ DIRECTIONS ∧
        4 ≤ (getConnectedPositions b row col dr dc player).length ∧
        res.2 = (getConnectedPositions b row col dr dc player).take 4 ∧
        res.2.length = 4 ∧
        ∃ k : Nat, ∀ (i : Nat) (hi : i < res.2.length),
          res.2.get ⟨i, hi⟩
            = (row + ((i : Int) - (k : Int)) * dr,
               col + ((i : Int) - (k : Int)) * dc) := by
  constructor
  · exact checkWinAux_none_iff b row col player DIRECTIONS
  · intro res hres
    obtain ⟨dr, dc, hmem, h4, heq⟩ := checkWinAux_some b row col player DIRECTIONS res hres
    subst heq
    dsimp only
    have hlen4 : ((getConnectedPositions b row col dr dc player).take 4).length = 4 := by
      simp only [List.length_take]
      omega
    refine ⟨rfl, dr, dc, hmem, h4, rfl, hlen4, ?_⟩
    refine ⟨(walk b (row - dr) (col - dc) (-dr) (-dc) player 16).length, ?_⟩
    intro i hi
    have hi4 : i < 4 := by rw [hlen4] at hi; exact hi
    have higcp : i < (getConnectedPositions b row col dr dc player).length := by
      omega
    rw [List.get_eq_getElem, List.getElem_take]
    have hg := gcp_get b row col dr dc player i higcp
    rw [List.get_eq_getElem] at hg
    exact hg




set_option maxRecDepth 40000 in
/-- C4, counterexample.  Calling `checkWin` with the out-of-bounds origin
`(-1, 0)` on a board with three tokens below returns a winning line whose
four coordinates include the out-of-bounds origin, so an out-of-bounds
coordinate can appear as one of the four matching cells of a returned
line. -/
theorem checkWin_oob_counterexample :
    checkWin bThreeInColumn (-1) 0 1
      = some (1, [(-1, 0), (0, 0), (1, 0), (2, 0)]) ∧
    ¬ isValidPosition (-1) 0 ∧
    ((-1, 0) : Int × Int) ∈ [((-1 : Int), (0 : Int)), (0, 0), (1, 0), (2, 0)] := by
  refine ⟨by decide, by decide, by decide⟩

/-- C4, amended.  Directional walks stop at the grid boundary and collect
only in-bounds cells holding the queried side; consequently every
coordinate of a returned line other than the (possibly out-of-bounds,
uninspected) origin is in bounds and matches, and no out-of-bounds
coordinate other than the origin ever appears in a returned line.
`checkWin` never errors: it totally returns `none` or a line. -/
theorem checkWin_oob_amended (b : Board) (row col : Int) (player : Nat) :
    (∀ (r c dr dc : Int) (q : Int × Int), q ∈ walk b r c dr dc player 16 →
      isValidPosition q.1 q.2 ∧ getCell b q.1 q.2 = some player) ∧
    (∀ res, checkWin b row col player = some res →
      ∀ q ∈ res.2, q ≠ (row, col) →
        isValidPosition q.1 q.2 ∧ getCell b q.1 q.2 = some player) :=
  ⟨fun r c _ _ q hq => walk_mem 16 r c q hq,
   fun _ hres => checkWin_members hres⟩

set_option maxRecDepth 40000 in
/-- Witness for the amended C4 at a concrete input. -/
theorem checkWin_oob_amended_witness :
    isValidPosition 0 0 ∧ getCell bThreeInColumn 0 0 = some 1 :=
  (checkWin_oob_amended bThreeInColumn (-1) 0 1).2
    (1, [(-1, 0), (0, 0), (1, 0), (2, 0)]) (by decide) (0, 0) (by decide)
    (by decide)

set_option maxRecDepth 40000 in
/-- C10.  `checkWin` never reads the origin cell and always counts it as
belonging to the queried side: on a board with three side-1 tokens at
row 0, columns 0–2, querying the empty in-bounds cell (0,3) returns a
line that includes (0,3); and in general every returned coordinate other
than the origin holds the queried side's token. -/
theorem checkWin_origin_uninspected :
    (checkWin bThreeInRow 0 3 1
        = some (1, [(0, 0), (0, 1), (0, 2), (0, 3)]) ∧
      getCell bThreeInRow 0 3 = some EMPTY ∧
      isValidPosition 0 3 ∧
      ((0, 3) : Int × Int) ∈ [((0 : Int), (0 : Int)), (0, 1), (0, 2), (0, 3)]) ∧
    (∀ (b : Board) (row col : Int) (player : Nat)
        (res : Nat × List (Int × Int)),
      checkWin b row col player = some res →
      ∀ q ∈ res.2, q ≠ (row, col) → getCell b q.1 q.2 = some player) := by
  refine ⟨⟨by decide, by decide, by decide, by decide⟩, ?_⟩
  intro b row col player res hres q hq hne
  exact (checkWin_members hres q hq hne).2

set_option maxRecDepth 40000 in
/-- Witness for the universal part of C10 at a concrete input. -/
theorem checkWin_origin_uninspected_witness :
    getCell bThreeInRow 0 0 = some 1 :=
  checkWin_origin_uninspected.2 bThreeInRow 0 3 1
    (1, [(0, 0), (0, 1), (0, 2), (0, 3)]) (by decide) (0, 0) (by decide)
    (by decide)

set_option maxRecDepth 40000 in
/-- Witness for C3 at a concrete input: the horizontal win scenario of
§8 of the spec. -/
theorem checkWin_characterization_witness :
    checkWin bWinRow 0 3 1 = some (1, [(0, 0), (0, 1), (0, 2), (0, 3)]) ∧
    ((1, [((0 : Int), (0 : Int)), (0, 1), (0, 2), (0, 3)]).1 = 1 ∧
      ∃ dr dc, (dr, dc) ∈ DIRECTIONS ∧
        4 ≤ (getConnectedPositions bWinRow 0 3 dr dc 1).length ∧
        (1, [((0 : Int), (0 : Int)), (0, 1), (0, 2), (0, 3)]).2
          = (getConnectedPositions bWinRow 0 3 dr dc 1).take 4 ∧
        (1, [((0 : Int), (0 : Int)), (0, 1), (0, 2), (0, 3)]).2.length = 4 ∧
        ∃ k : Nat, ∀ (i : Nat)
          (hi : i < (1, [((0 : Int), (0 : Int)), (0, 1), (0, 2), (0, 3)]).2.length),
          (1, [((0 : Int), (0 : Int)), (0, 1), (0, 2), (0, 3)]).2.get ⟨i, hi⟩
            = ((0 : Int) + ((i : Int) - (k : Int)) * dr,
               (3 : Int) + ((i : Int) - (k : Int)) * dc)) :=
  ⟨by decide,
   (checkWin_characterization bWinRow 0 3 1).2
     (1, [(0, 0), (0, 1), (0, 2), (0, 3)]) (by decide)⟩

/-! ## C5 and C7: degenerate best-move inputs and minimax terminals -/

/-- C5.  With zero valid moves `getBestMove` returns the sentinel `-1`
(totally, without any exception); with exactly one valid move it returns
that column immediately, before any search. -/
theorem getBestMove_degenerate (b : Board) (depth : Nat) :
    (getValidMoves b = [] → getBestMove b depth = -1) ∧
    (∀ c : Nat, getValidMoves b = [c] → getBestMove b depth = (c : Int)) := by
  constructor
  · intro h
    simp [getBestMove, h]
  · intro c h
    simp [getBestMove, h]



set_option maxRecDepth 40000 in
/-- Witness for C5 at concrete inputs. -/
theorem getBestMove_degenerate_witness :
    (getValidMoves bFullDraw = [] ∧ getBestMove bFullDraw 4 = -1) ∧
    (getValidMoves bOneMove = [6] ∧ getBestMove bOneMove 4 = 6) :=
  ⟨⟨by decide, (getBestMove_degenerate bFullDraw 4).1 (by decide)⟩,
   ⟨by decide, (getBestMove_degenerate bOneMove 4).2 6 (by decide)⟩⟩

/-- C7.  The terminal checks of `minimax`, in source order: an existing
win for the engine side scores `+(WIN + depth)`, one for the opponent
`-(WIN + depth)` (both regardless of fullness or depth); otherwise a full
board is a draw worth 0; otherwise at depth 0 the static evaluation is
returned. -/
theorem minimax_terminal (b : Board) (depth : Nat) (alpha beta : XInt)
    (isMax : Bool) :
    (checkWinner b = some AI_PLAYER →
      minimax b depth alpha beta isMax = .fin (SCORE_WIN + (depth : Int))) ∧
    (checkWinner b = some HUMAN_PLAYER →
      minimax b depth alpha beta isMax = .fin (-SCORE_WIN - (depth : Int))) ∧
    (checkWinner b = none → isBoardFull b = true →
      minimax b depth alpha beta isMax = .fin 0) ∧
    (checkWinner b = none → isBoardFull b = false → depth = 0 →
      minimax b depth alpha beta isMax = .fin (evaluateBoard b)) := by
  refine ⟨?_, ?_, ?_, ?_⟩
  · intro h
    unfold minimax
    simp [h, AI_PLAYER]
  · intro h
    unfold minimax
    simp [h, AI_PLAYER, HUMAN_PLAYER]
  · intro h hfull
    unfold minimax
    simp [h, hfull]
  · intro h hfull hd
    subst hd
    unfold minimax
    simp [h, hfull]


set_option maxRecDepth 40000 in
/-- Witness for C7: each terminal clause at a concrete board. -/
theorem minimax_terminal_witness :
    (checkWinner bWinRowAI = some AI_PLAYER ∧
      minimax bWinRowAI 3 .negInf .posInf true
        = .fin (SCORE_WIN + ((3 : Nat) : Int))) ∧
    (checkWinner bWinRow = some HUMAN_PLAYER ∧
      minimax bWinRow 2 .negInf .posInf false
        = .fin (-SCORE_WIN - ((2 : Nat) : Int))) ∧
    (checkWinner bFullDraw = none ∧ isBoardFull bFullDraw = true ∧
      minimax bFullDraw 4 .negInf .posInf true = .fin 0) ∧
    (checkWinner bThreeInRow = none ∧ isBoardFull bThreeInRow = false ∧
      minimax bThreeInRow 0 .negInf .posInf true
        = .fin (evaluateBoard bThreeInRow)) :=
  ⟨⟨by decide, (minimax_terminal bWinRowAI 3 .negInf .posInf true).1 (by decide)⟩,
   ⟨by decide, (minimax_terminal bWinRow 2 .negInf .posInf false).2.1 (by decide)⟩,
   ⟨by decide, by decide,
    (minimax_terminal bFullDraw 4 .negInf .posInf true).2.2.1 (by decide) (by decide)⟩,
   ⟨by decide, by decide,
    (minimax_terminal bThreeInRow 0 .negInf .posInf true).2.2.2 (by decide)
      (by decide) rfl⟩⟩

/-! ## Further order lemmas -/

theorem xmax_eq_left {a b : XInt} (h : xle b a = true) : xmax a b = a := by
  unfold xmax
  by_cases hab : xle a b = true
  · rw [if_pos hab]
    exact (xle_antisymm hab h).symm
  · rw [if_neg hab]

theorem xmax_eq_right {a b : XInt} (h : xle a b = true) : xmax a b = b := by
  unfold xmax
  rw [if_pos h]

theorem xmin_eq_left {a b : XInt} (h : xle a b = true) : xmin a b = a := by
  unfold xmin
  rw [if_pos h]

theorem xmin_eq_right {a b : XInt} (h : xle b a = true) : xmin a b = b := by
  unfold xmin
  by_cases hab : xle a b = true
  · rw [if_pos hab]
    exact xle_antisymm hab h
  · rw [if_neg hab]

theorem xmax_choice (a b : XInt) : xmax a b = a ∨ xmax a b = b := by
  unfold xmax
  by_cases h : xle a b = true
  · rw [if_pos h]; exact Or.inr rfl
  · rw [if_neg h]; exact Or.inl rfl

theorem xmin_choice (a b : XInt) : xmin a b = a ∨ xmin a b = b := by
  unfold xmin
  by_cases h : xle a b = true
  · rw [if_pos h]; exact Or.inl rfl
  · rw [if_neg h]; exact Or.inr rfl

theorem xmax_bot_right (a : XInt) : xmax a .negInf = a :=
  xmax_eq_left (xle_bot a)

theorem xmin_top_right (a : XInt) : xmin a .posInf = a :=
  xmin_eq_left (xle_top a)

/-! ## The loop-result bounds -/

theorem maxLoop_ge (f : Board → XInt → XInt → XInt) :
    ∀ (l : List Nat) (b : Board) (m alpha beta : XInt),
      xle m (maxLoop f l b m alpha beta) = true := by
  intro l
  induction l with
  | nil => intro b m alpha beta; exact xle_refl m
  | cons col rest ih =>
    intro b m alpha beta
    simp only [maxLoop]
    split
    · exact xle_xmax_iff.mpr (Or.inl (xle_refl m))
    · exact xle_trans (xle_xmax_iff.mpr (Or.inl (xle_refl m))) (ih b _ _ _)

theorem minLoop_le (f : Board → XInt → XInt → XInt) :
    ∀ (l : List Nat) (b : Board) (m alpha beta : XInt),
      xle (minLoop f l b m alpha beta) m = true := by
  intro l
  induction l with
  | nil => intro b m alpha beta; exact xle_refl m
  | cons col rest ih =>
    intro b m alpha beta
    simp only [minLoop]
    split
    · exact xmin_xle_iff.mpr (Or.inl (xle_refl m))
    · exact xle_trans (ih b _ _ _) (xmin_xle_iff.mpr (Or.inl (xle_refl m)))

theorem maxLoopNoPrune_init (g : Board → XInt) :
    ∀ (l : List Nat) (b : Board) (m : XInt),
      maxLoopNoPrune g l b m = xmax m (maxLoopNoPrune g l b .negInf) := by
  intro l
  induction l with
  | nil =>
    intro b m
    simp only [maxLoopNoPrune]
    exact (xmax_bot_right m).symm
  | cons col rest ih =>
    intro b m
    simp only [maxLoopNoPrune]
    rw [ih b, ih b (xmax .negInf _), xmax_bot, ← xmax_assoc]

theorem minLoopNoPrune_init (g : Board → XInt) :
    ∀ (l : List Nat) (b : Board) (m : XInt),
      minLoopNoPrune g l b m = xmin m (minLoopNoPrune g l b .posInf) := by
  intro l
  induction l with
  | nil =>
    intro b m
    simp only [minLoopNoPrune]
    exact (xmin_top_right m).symm
  | cons col rest ih =>
    intro b m
    simp only [minLoopNoPrune]
    rw [ih b, ih b (xmin .posInf _), xmin_top, ← xmin_assoc]

/-! ## The fail-soft alpha-beta invariant (Knuth–Moore) -/


theorem approx_self (r alpha beta : XInt) : Approx r r alpha beta :=
  ⟨fun _ => xle_refl r, fun _ _ => rfl, fun _ => xle_refl r⟩

theorem maxLoop_approx
    (f : Board → XInt → XInt → XInt) (g : Board → XInt) (b : Board)
    (H : ∀ (b' : Board) (alpha beta : XInt), xle beta alpha = false →
      Approx (f b' alpha beta) (g b') alpha beta) :
    ∀ (l : List Nat) (m alpha beta : XInt), xle beta alpha = false →
      Approx (maxLoop f l b m alpha beta) (maxLoopNoPrune g l b m)
        alpha beta := by
  intro l
  induction l with
  | nil =>
    intro m alpha beta _
    simp only [maxLoop, maxLoopNoPrune]
    exact approx_self m alpha beta
  | cons col rest ih =>
    intro m alpha beta hab
    simp only [maxLoop, maxLoopNoPrune]
    generalize (dropToken (clone b) (col : Int) AI_PLAYER).2 = bc
    have hchild := H bc alpha beta hab
    generalize hfs : f bc alpha beta = s at hchild ⊢
    generalize hgv : g bc = v at hchild ⊢
    rw [maxLoopNoPrune_init g rest b (xmax m v)]
    set V := maxLoopNoPrune g rest b .negInf with hV
    by_cases hbs : xle beta s = true
    · -- beta cutoff after this child
      rw [if_pos (xle_xmax_iff.mpr (Or.inr hbs))]
      have hsr : xle s (xmax m s) = true := xle_xmax_iff.mpr (Or.inr (xle_refl s))
      have hbr : xle beta (xmax m s) = true := xle_trans hbs hsr
      refine ⟨?_, ?_, ?_⟩
      · intro hra
        exact absurd (xle_trans hbr hra) (by simp [hab])
      · intro _ hbr2
        exact absurd hbr (by simp [hbr2])
      · intro _
        have hsv : xle s v = true := hchild.2.2 hbs
        apply xmax_xle_iff.mpr
        constructor
        · exact xle_xmax_iff.mpr (Or.inl (xle_xmax_iff.mpr (Or.inl (xle_refl m))))
        · exact xle_trans hsv
            (xle_xmax_iff.mpr (Or.inl (xle_xmax_iff.mpr (Or.inr (xle_refl v)))))
    · -- no cutoff: continue the loop
      have hcut : xle beta (xmax alpha s) = false := by
        rcases xmax_choice alpha s with hc | hc <;> rw [hc]
        · exact hab
        · simpa using hbs
      rw [if_neg (by simp [hcut])]
      have ihA := ih (xmax m s) (xmax alpha s) beta hcut
      rw [maxLoopNoPrune_init g rest b (xmax m s), ← hV] at ihA
      have hge := maxLoop_ge f rest b (xmax m s) (xmax alpha s) beta
      set r := maxLoop f rest b (xmax m s) (xmax alpha s) beta with hr
      by_cases hsa : xle s alpha = true
      · -- the child failed low: its exact value is at most s
        have hva : xle v s = true := hchild.1 hsa
        have hxm : xmax alpha s = alpha := xmax_eq_left hsa
        rw [hxm] at ihA
        refine ⟨?_, ?_, ?_⟩
        · intro hra
          have hW := ihA.1 hra
          rcases xmax_xle_iff.mp hW with ⟨hms, hV2⟩
          rcases xmax_xle_iff.mp hms with ⟨hm, hs⟩
          exact xmax_xle_iff.mpr
            ⟨xmax_xle_iff.mpr ⟨hm, xle_trans hva hs⟩, hV2⟩
        · intro h1 h2
          have hrw := ihA.2.1 h1 h2
          have hsr : xle r s = false := by
            by_contra hcon
            simp only [Bool.not_eq_false] at hcon
            exact absurd (xle_trans hcon hsa) (by simp [h1])
          -- r is one of m, s, V and r ≠ s, so r = m or r = V
          have hcomp : r = m ∨ r = V := by
            rcases xmax_choice (xmax m s) V with hc | hc
            · rcases xmax_choice m s with hc2 | hc2
              · exact Or.inl ((hrw.trans hc).trans hc2)
              · exfalso
                have hrs2 : r = s := (hrw.trans hc).trans hc2
                rw [hrs2] at hsr
                simp [xle_refl] at hsr
            · exact Or.inr (hrw.trans hc)
          -- all of m, v, V are at most r
          have hm : xle m r = true := by
            rw [hrw]
            exact xle_xmax_iff.mpr (Or.inl (xle_xmax_iff.mpr (Or.inl (xle_refl m))))
          have hs2 : xle s r = true := by
            rw [hrw]
            exact xle_xmax_iff.mpr (Or.inl (xle_xmax_iff.mpr (Or.inr (xle_refl s))))
          have hV2 : xle V r = true := by
            rw [hrw]
            exact xle_xmax_iff.mpr (Or.inr (xle_refl V))
          have hWle : xle (xmax (xmax m v) V) r = true :=
            xmax_xle_iff.mpr ⟨xmax_xle_iff.mpr ⟨hm, xle_trans hva hs2⟩, hV2⟩
          have hrW : xle r (xmax (xmax m v) V) = true := by
            rcases hcomp with h | h
            · rw [h]
              exact xle_xmax_iff.mpr (Or.inl (xle_xmax_iff.mpr (Or.inl (xle_refl m))))
            · rw [h]
              exact xle_xmax_iff.mpr (Or.inr (xle_refl V))
          exact xle_antisymm hrW hWle
        · intro hbr
          have hrW := ihA.2.2 hbr
          rcases xle_xmax_iff.mp hrW with hrs | hrV
          · rcases xle_xmax_iff.mp hrs with hrm | hrs2
            · exact xle_xmax_iff.mpr (Or.inl (xle_xmax_iff.mpr (Or.inl hrm)))
            · exfalso
              have : xle r alpha = true := xle_trans hrs2 hsa
              exact absurd (xle_trans hbr this) (by simp [hab])
          · exact xle_xmax_iff.mpr (Or.inr hrV)
      · -- the child is inside the window: its value is exact
        have hveq : s = v := hchild.2.1 (by simpa using hsa) (by simpa using hbs)
        subst hveq
        have hxm : xmax alpha s = s := xmax_eq_right (xle_of_not_xle (by simpa using hsa))
        rw [hxm] at ihA
        have hsr : xle s r = true :=
          xle_trans (xle_xmax_iff.mpr (Or.inr (xle_refl s))) hge
        refine ⟨?_, ?_, ?_⟩
        · intro hra
          exact absurd (xle_trans hsr hra) (by simp [hsa])
        · intro h1 h2
          by_cases hrs : xle r s = true
          · have hreq : r = s := xle_antisymm hrs hsr
            have hWr := ihA.1 hrs
            have hrW : xle r (xmax (xmax m s) V) = true := by
              rw [hreq]
              exact xle_xmax_iff.mpr (Or.inl (xle_xmax_iff.mpr (Or.inr (xle_refl s))))
            exact xle_antisymm hrW hWr
          · exact ihA.2.1 (by simpa using hrs) h2
        · intro hbr
          exact ihA.2.2 hbr

theorem minLoop_approx
    (f : Board → XInt → XInt → XInt) (g : Board → XInt) (b : Board)
    (H : ∀ (b' : Board) (alpha beta : XInt), xle beta alpha = false →
      Approx (f b' alpha beta) (g b') alpha beta) :
    ∀ (l : List Nat) (m alpha beta : XInt), xle beta alpha = false →
      Approx (minLoop f l b m alpha beta) (minLoopNoPrune g l b m)
        alpha beta := by
  intro l
  induction l with
  | nil =>
    intro m alpha beta _
    simp only [minLoop, minLoopNoPrune]
    exact approx_self m alpha beta
  | cons col rest ih =>
    intro m alpha beta hab
    simp only [minLoop, minLoopNoPrune]
    generalize (dropToken (clone b) (col : Int) HUMAN_PLAYER).2 = bc
    have hchild := H bc alpha beta hab
    generalize hfs : f bc alpha beta = s at hchild ⊢
    generalize hgv : g bc = v at hchild ⊢
    rw [minLoopNoPrune_init g rest b (xmin m v)]
    set V := minLoopNoPrune g rest b .posInf with hV
    by_cases hsa : xle s alpha = true
    · -- alpha cutoff after this child
      rw [if_pos (xmin_xle_iff.mpr (Or.inr hsa))]
      have hrs : xle (xmin m s) s = true := xmin_xle_iff.mpr (Or.inr (xle_refl s))
      have hra : xle (xmin m s) alpha = true := xle_trans hrs hsa
      have hvs : xle v s = true := hchild.1 hsa
      refine ⟨?_, ?_, ?_⟩
      · intro _
        apply xle_xmin_iff.mpr
        constructor
        · exact xmin_xle_iff.mpr (Or.inl (xmin_xle_iff.mpr (Or.inl (xle_refl m))))
        · exact xle_trans
            (xmin_xle_iff.mpr (Or.inl (xmin_xle_iff.mpr (Or.inr (xle_refl v))))) hvs
      · intro h1 _
        exact absurd hra (by simp [h1])
      · intro hbr
        exact absurd (xle_trans hbr hra) (by simp [hab])
    · -- no cutoff: continue the loop
      have hcut : xle (xmin beta s) alpha = false := by
        rcases xmin_choice beta s with hc | hc <;> rw [hc]
        · exact hab
        · simpa using hsa
      rw [if_neg (by simp [hcut])]
      have ihA := ih (xmin m s) alpha (xmin beta s) hcut
      rw [minLoopNoPrune_init g rest b (xmin m s), ← hV] at ihA
      have hle := minLoop_le f rest b (xmin m s) alpha (xmin beta s)
      set r := minLoop f rest b (xmin m s) alpha (xmin beta s) with hr
      by_cases hbs : xle beta s = true
      · -- the child failed high: its exact value is at least s
        have hsv : xle s v = true := hchild.2.2 hbs
        have hxm : xmin beta s = beta := xmin_eq_left hbs
        rw [hxm] at ihA
        refine ⟨?_, ?_, ?_⟩
        · intro hra
          have hW := ihA.1 hra
          rcases xmin_xle_iff.mp hW with hms | hV2
          · rcases xmin_xle_iff.mp hms with hm | hs2
            · exact xmin_xle_iff.mpr (Or.inl (xmin_xle_iff.mpr (Or.inl hm)))
            · exfalso
              exact absurd (xle_trans hbs (xle_trans hs2 hra)) (by simp [hab])
          · exact xmin_xle_iff.mpr (Or.inr hV2)
        · intro h1 h2
          have hrw := ihA.2.1 h1 h2
          have hsr : xle s r = false := by
            by_contra hcon
            simp only [Bool.not_eq_false] at hcon
            exact absurd (xle_trans hbs hcon) (by simp [h2])
          have hcomp : r = m ∨ r = V := by
            rcases xmin_choice (xmin m s) V with hc | hc
            · rcases xmin_choice m s with hc2 | hc2
              · exact Or.inl ((hrw.trans hc).trans hc2)
              · exfalso
                have hrs2 : r = s := (hrw.trans hc).trans hc2
                rw [hrs2] at hsr
                simp [xle_refl] at hsr
            · exact Or.inr (hrw.trans hc)
          have hm : xle r m = true := by
            rw [hrw]
            exact xmin_xle_iff.mpr (Or.inl (xmin_xle_iff.mpr (Or.inl (xle_refl m))))
          have hs2 : xle r s = true := by
            rw [hrw]
            exact xmin_xle_iff.mpr (Or.inl (xmin_xle_iff.mpr (Or.inr (xle_refl s))))
          have hV2 : xle r V = true := by
            rw [hrw]
            exact xmin_xle_iff.mpr (Or.inr (xle_refl V))
          have hWge : xle r (xmin (xmin m v) V) = true :=
            xle_xmin_iff.mpr ⟨xle_xmin_iff.mpr ⟨hm, xle_trans hs2 hsv⟩, hV2⟩
          have hrW : xle (xmin (xmin m v) V) r = true := by
            rcases hcomp with h | h
            · rw [h]
              exact xmin_xle_iff.mpr (Or.inl (xmin_xle_iff.mpr (Or.inl (xle_refl m))))
            · rw [h]
              exact xmin_xle_iff.mpr (Or.inr (xle_refl V))
          exact xle_antisymm hWge hrW
        · intro hbr
          have hrW := ihA.2.2 hbr
          rcases xle_xmin_iff.mp hrW with ⟨hms, hV2⟩
          rcases xle_xmin_iff.mp hms with ⟨hm, hs2⟩
          exact xle_xmin_iff.mpr ⟨xle_xmin_iff.mpr ⟨hm, xle_trans hs2 hsv⟩, hV2⟩
      · -- the child is inside the window: its value is exact
        have hveq : s = v := hchild.2.1 (by simpa using hsa) (by simpa using hbs)
        subst hveq
        have hxm : xmin beta s = s := xmin_eq_right (xle_of_not_xle (by simpa using hbs))
        rw [hxm] at ihA
        have hrs : xle r s = true :=
          xle_trans hle (xmin_xle_iff.mpr (Or.inr (xle_refl s)))
        refine ⟨?_, ?_, ?_⟩
        · intro hra
          exact ihA.1 hra
        · intro h1 h2
          by_cases hsr : xle s r = true
          · have hreq : r = s := xle_antisymm hrs hsr
            have hWr := ihA.2.2 hsr
            have hrW : xle (xmin (xmin m s) V) r = true := by
              rw [hreq]
              exact xmin_xle_iff.mpr (Or.inl (xmin_xle_iff.mpr (Or.inr (xle_refl s))))
            exact xle_antisymm hWr hrW
          · exact ihA.2.1 h1 (by simpa using hsr)
        · intro hbr
          exact absurd (xle_trans hbr hrs) (by simp [hbs])

theorem minimax_approx :
    ∀ (depth : Nat) (b : Board) (alpha beta : XInt) (isMax : Bool),
      xle beta alpha = false →
      Approx (minimax b depth alpha beta isMax)
        (minimaxNoPrune b depth isMax) alpha beta := by
  intro depth
  induction depth with
  | zero =>
    intro b alpha beta isMax _
    have heq : minimax b 0 alpha beta isMax = minimaxNoPrune b 0 isMax := rfl
    rw [heq]
    exact approx_self _ _ _
  | succ d ih =>
    intro b alpha beta isMax hab
    by_cases h1 : checkWinner b = some AI_PLAYER
    · have e1 : minimax b (d + 1) alpha beta isMax
          = .fin (SCORE_WIN + ((d + 1 : Nat) : Int)) := by
        unfold minimax
        simp [h1]
      have e2 : minimaxNoPrune b (d + 1) isMax
          = .fin (SCORE_WIN + ((d + 1 : Nat) : Int)) := by
        unfold minimaxNoPrune
        simp [h1]
      rw [e1, e2]
      exact approx_self _ _ _
    · by_cases h2 : checkWinner b = some HUMAN_PLAYER
      · have e1 : minimax b (d + 1) alpha beta isMax
            = .fin (-SCORE_WIN - ((d + 1 : Nat) : Int)) := by
          unfold minimax
          simp [h1, h2, AI_PLAYER, HUMAN_PLAYER]
        have e2 : minimaxNoPrune b (d + 1) isMax
            = .fin (-SCORE_WIN - ((d + 1 : Nat) : Int)) := by
          unfold minimaxNoPrune
          simp [h1, h2, AI_PLAYER, HUMAN_PLAYER]
        rw [e1, e2]
        exact approx_self _ _ _
      · by_cases h3 : isBoardFull b = true
        · have e1 : minimax b (d + 1) alpha beta isMax = .fin 0 := by
            unfold minimax
            simp [h1, h2, h3]
          have e2 : minimaxNoPrune b (d + 1) isMax = .fin 0 := by
            unfold minimaxNoPrune
            simp [h1, h2, h3]
          rw [e1, e2]
          exact approx_self _ _ _
        · have h3' : isBoardFull b = false := by simpa using h3
          cases isMax with
          | true =>
            have e0 : minimax b (d + 1) alpha beta true
                = (if checkWinner b = some AI_PLAYER then
                    XInt.fin (SCORE_WIN + ((d + 1 : Nat) : Int))
                  else if checkWinner b = some HUMAN_PLAYER then
                    XInt.fin (-SCORE_WIN - ((d + 1 : Nat) : Int))
                  else if isBoardFull b = true then XInt.fin 0
                  else maxLoop (fun b2 a2 b3 => minimax b2 d a2 b3 false)
                    (orderMoves (getValidMoves b)) b .negInf alpha beta) := rfl
            have e1 : minimax b (d + 1) alpha beta true
                = maxLoop (fun b2 a2 b3 => minimax b2 d a2 b3 false)
                    (orderMoves (getValidMoves b)) b .negInf alpha beta := by
              rw [e0, if_neg h1, if_neg h2, if_neg h3]
            have e0' : minimaxNoPrune b (d + 1) true
                = (if checkWinner b = some AI_PLAYER then
                    XInt.fin (SCORE_WIN + ((d + 1 : Nat) : Int))
                  else if checkWinner b = some HUMAN_PLAYER then
                    XInt.fin (-SCORE_WIN - ((d + 1 : Nat) : Int))
                  else if isBoardFull b = true then XInt.fin 0
                  else maxLoopNoPrune (fun b2 => minimaxNoPrune b2 d false)
                    (orderMoves (getValidMoves b)) b .negInf) := rfl
            have e2 : minimaxNoPrune b (d + 1) true
                = maxLoopNoPrune (fun b2 => minimaxNoPrune b2 d false)
                    (orderMoves (getValidMoves b)) b .negInf := by
              rw [e0', if_neg h1, if_neg h2, if_neg h3]
            rw [e1, e2]
            exact maxLoop_approx _ _ b
              (fun b' a' b'' h => ih b' a' b'' false h)
              (orderMoves (getValidMoves b)) .negInf alpha beta hab
          | false =>
            have e0 : minimax b (d + 1) alpha beta false
                = (if checkWinner b = some AI_PLAYER then
                    XInt.fin (SCORE_WIN + ((d + 1 : Nat) : Int))
                  else if checkWinner b = some HUMAN_PLAYER then
                    XInt.fin (-SCORE_WIN - ((d + 1 : Nat) : Int))
                  else if isBoardFull b = true then XInt.fin 0
                  else minLoop (fun b2 a2 b3 => minimax b2 d a2 b3 true)
                    (orderMoves (getValidMoves b)) b .posInf alpha beta) := rfl
            have e1 : minimax b (d + 1) alpha beta false
                = minLoop (fun b2 a2 b3 => minimax b2 d a2 b3 true)
                    (orderMoves (getValidMoves b)) b .posInf alpha beta := by
              rw [e0, if_neg h1, if_neg h2, if_neg h3]
            have e0' : minimaxNoPrune b (d + 1) false
                = (if checkWinner b = some AI_PLAYER then
                    XInt.fin (SCORE_WIN + ((d + 1 : Nat) : Int))
                  else if checkWinner b = some HUMAN_PLAYER then
                    XInt.fin (-SCORE_WIN - ((d + 1 : Nat) : Int))
                  else if isBoardFull b = true then XInt.fin 0
                  else minLoopNoPrune (fun b2 => minimaxNoPrune b2 d true)
                    (orderMoves (getValidMoves b)) b .posInf) := rfl
            have e2 : minimaxNoPrune b (d + 1) false
                = minLoopNoPrune (fun b2 => minimaxNoPrune b2 d true)
                    (orderMoves (getValidMoves b)) b .posInf := by
              rw [e0', if_neg h1, if_neg h2, if_neg h3]
            rw [e1, e2]
            exact minLoop_approx _ _ b
              (fun b' a' b'' h => ih b' a' b'' true h)
              (orderMoves (getValidMoves b)) .posInf alpha beta hab

/-- The full-window alpha-beta value is exactly the unpruned value. -/
theorem minimax_full_window (b : Board) (depth : Nat) (isMax : Bool) :
    minimax b depth .negInf .posInf isMax = minimaxNoPrune b depth isMax := by
  have happ := minimax_approx depth b .negInf .posInf isMax (by rfl)
  by_cases h1 : xle (minimax b depth .negInf .posInf isMax) .negInf = true
  · have hr := eq_bot_of_xle_bot h1
    have hv := happ.1 h1
    rw [hr] at hv ⊢
    exact (eq_bot_of_xle_bot hv).symm
  · by_cases h2 : xle .posInf (minimax b depth .negInf .posInf isMax) = true
    · have hr := eq_top_of_top_xle h2
      have hv := happ.2.2 (by rw [hr]; exact xle_refl _)
      rw [hr] at hv ⊢
      exact (eq_top_of_top_xle hv).symm
    · exact happ.2.1 (by simpa using h1) (by simpa using h2)

theorem bestLoop_eq_noPrune (b : Board) (d : Nat) :
    ∀ (l : List Nat) (s : XInt) (mv : Int),
      bestLoop b d l s mv = bestLoopNoPrune b d l s mv := by
  intro l
  induction l with
  | nil => intro s mv; rfl
  | cons col rest ih =>
    intro s mv
    simp only [bestLoop, bestLoopNoPrune, minimax_full_window]
    split
    · exact ih _ _
    · exact ih _ _

/-- C1.  Alpha-beta pruning is a correctness-preserving optimization: the
full-window search value and the chosen best-move column agree exactly
with the otherwise-identical unpruned minimax search, for every board and
depth. -/
theorem alphabeta_equals_unpruned (b : Board) (depth : Nat) :
    (∀ isMax : Bool,
      minimax b depth .negInf .posInf isMax
        = minimaxNoPrune b depth isMax) ∧
    getBestMove b depth = getBestMoveNoPrune b depth := by
  constructor
  · intro isMax
    exact minimax_full_window b depth isMax
  · unfold getBestMove getBestMoveNoPrune
    cases hv : getValidMoves b with
    | nil => rfl
    | cons c rest =>
      cases rest with
      | nil => rfl
      | cons c2 rest2 => exact bestLoop_eq_noPrune b (depth - 1) _ _ _

/-! ## C8: the engine never mutates the board passed to `getBestMove` -/



theorem bestLoopSt_eq (b : Board) (d : Nat) :
    ∀ (l : List Nat) (s : XInt) (mv : Int),
      bestLoopSt b d l s mv = (bestLoop b d l s mv, b) := by
  intro l
  induction l with
  | nil => intro s mv; rfl
  | cons col rest ih =>
    intro s mv
    simp only [bestLoopSt, bestLoop]
    split
    · exact ih _ _
    · exact ih _ _

/-- C8.  `clone` produces a board equal in content to the original;
`getBestMove` returns its board argument in exactly the state it received
it (every hypothetical `dropToken` during search is applied to a clone,
and writing the clone touches no cell of the original board value). -/
theorem getBestMove_frame (b : Board) (depth : Nat) :
    (∀ (r : Fin 6) (c : Fin 7), clone b r c = b r c) ∧
    (getBestMoveSt b depth).2 = b ∧
    (getBestMoveSt b depth).1 = getBestMove b depth ∧
    (∀ (rS : Fin 6) (cS : Fin 7) (v : Nat) (r : Fin 6) (c : Fin 7),
      ¬(r = rS ∧ c = cS) →
      setCell (clone b) (rS : Int) (cS : Int) v r c = b r c) := by
  refine ⟨fun r c => by rw [clone_eq], ?_, ?_, ?_⟩
  · unfold getBestMoveSt
    cases hv : getValidMoves b with
    | nil => rfl
    | cons c rest =>
      cases rest with
      | nil => rfl
      | cons c2 rest2 =>
        dsimp only
        rw [bestLoopSt_eq]
  · unfold getBestMoveSt getBestMove
    cases hv : getValidMoves b with
    | nil => rfl
    | cons c rest =>
      cases rest with
      | nil => rfl
      | cons c2 rest2 =>
        dsimp only
        rw [bestLoopSt_eq]
  · intro rS cS v r c hne
    rw [setCell_fin_apply, if_neg hne, clone_eq]

set_option maxRecDepth 40000 in
/-- Witness for C8 at a concrete input: writing cell (0,0) of a clone of
the empty board leaves cell (1,1) of the original untouched. -/
theorem getBestMove_frame_witness :
    setCell (clone emptyBoard) (((0 : Fin 6) : Nat) : Int)
        (((0 : Fin 7) : Nat) : Int) 2 (1 : Fin 6) (1 : Fin 7)
      = emptyBoard (1 : Fin 6) (1 : Fin 7) :=
  (getBestMove_frame emptyBoard 4).2.2.2 0 0 2 1 1 (by decide)

/-! ## C6: search scores are finite and the loop picks the first argmax -/

theorem insertByDist_length (c : Nat) :
    ∀ l : List Nat, (insertByDist c l).length = l.length + 1 := by
  intro l
  induction l with
  | nil => rfl
  | cons x xs ih =>
    simp only [insertByDist]
    split
    · simp [ih]
    · simp

theorem orderMoves_foldl_length :
    ∀ (l acc : List Nat),
      (l.foldl (fun a c => insertByDist c a) acc).length
        = acc.length + l.length := by
  intro l
  induction l with
  | nil => intro acc; simp
  | cons c rest ih =>
    intro acc
    simp only [List.foldl_cons]
    rw [ih, insertByDist_length]
    simp only [List.length_cons]
    omega

theorem orderMoves_length (l : List Nat) :
    (orderMoves l).length = l.length := by
  unfold orderMoves
  rw [orderMoves_foldl_length]
  simp

theorem getValidMoves_ne_nil {b : Board} (h : isBoardFull b = false) :
    getValidMoves b ≠ [] := by
  unfold isBoardFull at h
  rw [List.all_eq_false] at h
  obtain ⟨col, hmem, hcol⟩ := h
  intro hcon
  have : col ∈ getValidMoves b := by
    unfold getValidMoves
    rw [List.mem_filter]
    exact ⟨hmem, by simpa using hcol⟩
  rw [hcon] at this
  simp at this

theorem orderMoves_ne_nil {b : Board} (h : isBoardFull b = false) :
    orderMoves (getValidMoves b) ≠ [] := by
  intro hcon
  have h1 := orderMoves_length (getValidMoves b)
  rw [hcon] at h1
  exact getValidMoves_ne_nil h (List.length_eq_zero.mp h1.symm)

theorem maxLoop_fin (f : Board → XInt → XInt → XInt)
    (hf : ∀ (b' : Board) (a2 b3 : XInt), ∃ n : Int, f b' a2 b3 = .fin n) :
    ∀ (l : List Nat) (b : Board) (m alpha beta : XInt),
      (∃ n : Int, m = .fin n) →
      ∃ n : Int, maxLoop f l b m alpha beta = .fin n := by
  intro l
  induction l with
  | nil => intro b m alpha beta hm; exact hm
  | cons col rest ih =>
    intro b m alpha beta hm
    obtain ⟨nm, hnm⟩ := hm
    obtain ⟨ns, hns⟩ := hf (dropToken (clone b) (col : Int) AI_PLAYER).2 alpha beta
    simp only [maxLoop]
    rw [hns, hnm]
    have hx : ∃ n : Int, xmax (XInt.fin nm) (XInt.fin ns) = .fin n := by
      rcases xmax_choice (XInt.fin nm) (XInt.fin ns) with hc | hc <;> rw [hc]
      · exact ⟨nm, rfl⟩
      · exact ⟨ns, rfl⟩
    obtain ⟨n, hn⟩ := hx
    rw [hn]
    split
    · exact ⟨n, rfl⟩
    · exact ih b _ _ _ ⟨n, rfl⟩

theorem minLoop_fin (f : Board → XInt → XInt → XInt)
    (hf : ∀ (b' : Board) (a2 b3 : XInt), ∃ n : Int, f b' a2 b3 = .fin n) :
    ∀ (l : List Nat) (b : Board) (m alpha beta : XInt),
      (∃ n : Int, m = .fin n) →
      ∃ n : Int, minLoop f l b m alpha beta = .fin n := by
  intro l
  induction l with
  | nil => intro b m alpha beta hm; exact hm
  | cons col rest ih =>
    intro b m alpha beta hm
    obtain ⟨nm, hnm⟩ := hm
    obtain ⟨ns, hns⟩ := hf (dropToken (clone b) (col : Int) HUMAN_PLAYER).2 alpha beta
    simp only [minLoop]
    rw [hns, hnm]
    have hx : ∃ n : Int, xmin (XInt.fin nm) (XInt.fin ns) = .fin n := by
      rcases xmin_choice (XInt.fin nm) (XInt.fin ns) with hc | hc <;> rw [hc]
      · exact ⟨nm, rfl⟩
      · exact ⟨ns, rfl⟩
    obtain ⟨n, hn⟩ := hx
    rw [hn]
    split
    · exact ⟨n, rfl⟩
    · exact ih b _ _ _ ⟨n, rfl⟩

/-- Every reachable `minimax` value is a finite number: terminals return
finite scores and every loop folds at least one child score (the board is
not full when the loops run). -/
theorem minimax_fin :
    ∀ (depth : Nat) (b : Board) (alpha beta : XInt) (isMax : Bool),
      ∃ n : Int, minimax b depth alpha beta isMax = .fin n := by
  intro depth
  induction depth with
  | zero =>
    intro b alpha beta isMax
    by_cases h1 : checkWinner b = some AI_PLAYER
    · exact ⟨SCORE_WIN + ((0 : Nat) : Int), by unfold minimax; simp [h1]⟩
    · by_cases h2 : checkWinner b = some HUMAN_PLAYER
      · exact ⟨-SCORE_WIN - ((0 : Nat) : Int),
          by unfold minimax; simp [h1, h2, AI_PLAYER, HUMAN_PLAYER]⟩
      · by_cases h3 : isBoardFull b = true
        · exact ⟨0, by unfold minimax; simp [h1, h2, h3]⟩
        · exact ⟨evaluateBoard b, by unfold minimax; simp [h1, h2, h3]⟩
  | succ d ih =>
    intro b alpha beta isMax
    by_cases h1 : checkWinner b = some AI_PLAYER
    · exact ⟨SCORE_WIN + ((d + 1 : Nat) : Int), by unfold minimax; simp [h1]⟩
    · by_cases h2 : checkWinner b = some HUMAN_PLAYER
      · exact ⟨-SCORE_WIN - ((d + 1 : Nat) : Int),
          by unfold minimax; simp [h1, h2, AI_PLAYER, HUMAN_PLAYER]⟩
      · by_cases h3 : isBoardFull b = true
        · exact ⟨0, by unfold minimax; simp [h1, h2, h3]⟩
        · have h3' : isBoardFull b = false := by simpa using h3
          have hne := orderMoves_ne_nil h3'
          cases isMax with
          | true =>
            have e1 : minimax b (d + 1) alpha beta true
                = maxLoop (fun b2 a2 b3 => minimax b2 d a2 b3 false)
                    (orderMoves (getValidMoves b)) b .negInf alpha beta := by
              rw [show minimax b (d + 1) alpha beta true
                  = (if checkWinner b = some AI_PLAYER then
                      XInt.fin (SCORE_WIN + ((d + 1 : Nat) : Int))
                    else if checkWinner b = some HUMAN_PLAYER then
                      XInt.fin (-SCORE_WIN - ((d + 1 : Nat) : Int))
                    else if isBoardFull b = true then XInt.fin 0
                    else maxLoop (fun b2 a2 b3 => minimax b2 d a2 b3 false)
                      (orderMoves (getValidMoves b)) b .negInf alpha beta) from rfl]
              rw [if_neg h1, if_neg h2, if_neg h3]
            rw [e1]
            rcases hm : orderMoves (getValidMoves b) with _ | ⟨c, rest⟩
            · exact absurd hm hne
            · simp only [maxLoop]
              obtain ⟨n, hn⟩ :=
                ih (dropToken (clone b) (c : Int) AI_PLAYER).2 alpha beta false
              rw [hn, xmax_bot]
              split
              · exact ⟨n, rfl⟩
              · exact maxLoop_fin _ (fun b' a2 b3 => ih b' a2 b3 false)
                  rest b _ _ _ ⟨n, rfl⟩
          | false =>
            have e1 : minimax b (d + 1) alpha beta false
                = minLoop (fun b2 a2 b3 => minimax b2 d a2 b3 true)
                    (orderMoves (getValidMoves b)) b .posInf alpha beta := by
              rw [show minimax b (d + 1) alpha beta false
                  = (if checkWinner b = some AI_PLAYER then
                      XInt.fin (SCORE_WIN + ((d + 1 : Nat) : Int))
                    else if checkWinner b = some HUMAN_PLAYER then
                      XInt.fin (-SCORE_WIN - ((d + 1 : Nat) : Int))
                    else if isBoardFull b = true then XInt.fin 0
                    else minLoop (fun b2 a2 b3 => minimax b2 d a2 b3 true)
                      (orderMoves (getValidMoves b)) b .posInf alpha beta) from rfl]
              rw [if_neg h1, if_neg h2, if_neg h3]
            rw [e1]
            rcases hm : orderMoves (getValidMoves b) with _ | ⟨c, rest⟩
            · exact absurd hm hne
            · simp only [minLoop]
              obtain ⟨n, hn⟩ :=
                ih (dropToken (clone b) (c : Int) HUMAN_PLAYER).2 alpha beta true
              rw [hn, xmin_top]
              split
              · exact ⟨n, rfl⟩
              · exact minLoop_fin _ (fun b' a2 b3 => ih b' a2 b3 true)
                  rest b _ _ _ ⟨n, rfl⟩


theorem bestLoop_cons (b : Board) (d : Nat) (col : Nat) (rest : List Nat)
    (s : XInt) (mv : Int) :
    bestLoop b d (col :: rest) s mv
      = if xlt s (rootScore b d col) = true
        then bestLoop b d rest (rootScore b d col) (col : Int)
        else bestLoop b d rest s mv := rfl

/-- The best-move loop keeps the incoming move unless some score strictly
exceeds the running best, and in that case returns the first column of
the list achieving the maximal score. -/
theorem bestLoop_spec (b : Board) (d : Nat) :
    ∀ (l : List Nat) (s : XInt) (mv : Int),
      (bestLoop b d l s mv = mv ∧
        ∀ c ∈ l, xle (rootScore b d c) s = true) ∨
      (∃ (i : Nat) (hi : i < l.length),
        bestLoop b d l s mv = ((l.get ⟨i, hi⟩ : Nat) : Int) ∧
        xle (rootScore b d (l.get ⟨i, hi⟩)) s = false ∧
        (∀ (j : Nat) (hj : j < i),
          xle (rootScore b d (l.get ⟨i, hi⟩))
              (rootScore b d (l.get ⟨j, Nat.lt_trans hj hi⟩)) = false) ∧
        (∀ (j : Nat) (hj : j < l.length),
          xle (rootScore b d (l.get ⟨j, hj⟩))
              (rootScore b d (l.get ⟨i, hi⟩)) = true)) := by
  intro l
  induction l with
  | nil =>
    intro s mv
    left
    exact ⟨rfl, by simp⟩
  | cons col rest ih =>
    intro s mv
    rw [bestLoop_cons]
    by_cases hup : xlt s (rootScore b d col) = true
    · rw [if_pos hup]
      have hscs : xle (rootScore b d col) s = false := by
        simpa [xlt] using hup
      rcases ih (rootScore b d col) (col : Int) with
        ⟨heq, hall⟩ | ⟨i, hi, heq, hgt, hfirst, hmax⟩
      · right
        refine ⟨0, by simp, heq, hscs, ?_, ?_⟩
        · intro j hj
          exact absurd hj (Nat.not_lt_zero j)
        · intro j hj
          match j, hj with
          | 0, _ => exact xle_refl _
          | k + 1, hj =>
            exact hall _ (List.get_mem rest _ _)
      · right
        refine ⟨i + 1, by simpa using hi, heq, ?_, ?_, ?_⟩
        · -- the chosen score strictly exceeds s as well
          by_contra hcon
          simp only [Bool.not_eq_false] at hcon
          have hss : xle s (rootScore b d col) = true :=
            xle_of_not_xle hscs
          have hcon2 : xle (rootScore b d (rest.get ⟨i, hi⟩)) s = true := by
            simpa using hcon
          exact absurd (xle_trans hcon2 hss) (by simpa using hgt)
        · intro j hj
          match j, hj with
          | 0, _ => exact hgt
          | k + 1, hj => exact hfirst k (by omega)
        · intro j hj
          match j, hj with
          | 0, _ =>
            have h1 : xle (rootScore b d col)
                (rootScore b d (rest.get ⟨i, hi⟩)) = true :=
              xle_of_not_xle hgt
            exact h1
          | k + 1, hj => exact hmax k (by simpa using hj)
    · rw [if_neg hup]
      have hscs : xle (rootScore b d col) s = true := by
        have : xlt s (rootScore b d col) = false := by simpa using hup
        simpa [xlt] using this
      rcases ih s mv with ⟨heq, hall⟩ | ⟨i, hi, heq, hgt, hfirst, hmax⟩
      · left
        refine ⟨heq, ?_⟩
        intro c hc
        rcases List.mem_cons.mp hc with rfl | hmem
        · exact hscs
        · exact hall c hmem
      · right
        refine ⟨i + 1, by simpa using hi, heq, hgt, ?_, ?_⟩
        · intro j hj
          match j, hj with
          | 0, _ =>
            by_contra hcon
            simp only [Bool.not_eq_false] at hcon
            have hcon2 : xle (rootScore b d (rest.get ⟨i, hi⟩))
                (rootScore b d col) = true := by
              simpa using hcon
            exact absurd (xle_trans hcon2 hscs) (by simpa using hgt)
          | k + 1, hj => exact hfirst k (by omega)
        · intro j hj
          match j, hj with
          | 0, _ =>
            have h1 : xle s (rootScore b d (rest.get ⟨i, hi⟩)) = true :=
              xle_of_not_xle hgt
            exact xle_trans hscs h1
          | k + 1, hj => exact hmax k (by simpa using hj)

set_option maxRecDepth 40000 in
/-- Evaluating `orderMoves` on any subset of the columns obtained by filtering the
ascending list `0..6` equals the same filter applied to the canonical
center-out column order (checked over all 128 subsets). -/
theorem orderMoves_filter_fin :
    ∀ f : Fin 7 → Bool,
      orderMoves ((List.range 7).filter
        (fun c => if h : c < 7 then f ⟨c, h⟩ else false))
        = [3, 2, 4, 1, 5, 0, 6].filter
            (fun c => if h : c < 7 then f ⟨c, h⟩ else false) := by
  decide

theorem orderMoves_filter (g : Nat → Bool) :
    orderMoves ((List.range 7).filter g)
      = [3, 2, 4, 1, 5, 0, 6].filter g := by
  have h := orderMoves_filter_fin (fun i => g i.val)
  have e1 : (List.range 7).filter (fun c => if h2 : c < 7 then g c else false)
      = (List.range 7).filter g := by
    apply List.filter_congr
    intro c hc
    rw [dif_pos (List.mem_range.mp hc)]
  have e2 : ([3, 2, 4, 1, 5, 0, 6] : List Nat).filter
      (fun c => if h2 : c < 7 then g c else false)
      = [3, 2, 4, 1, 5, 0, 6].filter g := by
    apply List.filter_congr
    intro c hc
    have hc7 : c < 7 := by
      fin_cases hc <;> omega
    rw [dif_pos hc7]
  rw [← e1, ← e2]
  exact h

set_option maxRecDepth 40000 in
/-- C6.  On the search path, `getBestMove` visits the valid columns in
center-out order (ascending distance from column 3, ties by natural
order — equivalently, the canonical order `[3,2,4,1,5,0,6]` filtered by
validity), updates the best move only on strictly greater score, and so
returns the first column in that order whose root minimax score is
maximal. -/
theorem getBestMove_center_out (b : Board) (depth : Nat)
    (hge : 2 ≤ (getValidMoves b).length) :
    orderMoves (getValidMoves b)
      = ([3, 2, 4, 1, 5, 0, 6] : List Nat).filter
          (fun c => !(isColumnFull b ((c : Nat) : Int))) ∧
    (orderMoves (getValidMoves b)).Pairwise
      (fun a c => centerDist a < centerDist c ∨
        (centerDist a = centerDist c ∧ a < c)) ∧
    ∃ (i : Nat) (hi : i < (orderMoves (getValidMoves b)).length),
      getBestMove b depth
        = (((orderMoves (getValidMoves b)).get ⟨i, hi⟩ : Nat) : Int) ∧
      (∀ (j : Nat) (hj : j < i),
        xle (rootScore b (depth - 1)
              ((orderMoves (getValidMoves b)).get ⟨i, hi⟩))
            (rootScore b (depth - 1)
              ((orderMoves (getValidMoves b)).get ⟨j, Nat.lt_trans hj hi⟩))
          = false) ∧
      (∀ (j : Nat) (hj : j < (orderMoves (getValidMoves b)).length),
        xle (rootScore b (depth - 1)
              ((orderMoves (getValidMoves b)).get ⟨j, hj⟩))
            (rootScore b (depth - 1)
              ((orderMoves (getValidMoves b)).get ⟨i, hi⟩)) = true) := by
  have hcanon : orderMoves (getValidMoves b)
      = ([3, 2, 4, 1, 5, 0, 6] : List Nat).filter
          (fun c => !(isColumnFull b ((c : Nat) : Int))) :=
    orderMoves_filter (fun c => !(isColumnFull b ((c : Nat) : Int)))
  refine ⟨hcanon, ?_, ?_⟩
  · rw [hcanon]
    have hP : ([3, 2, 4, 1, 5, 0, 6] : List Nat).Pairwise
        (fun a c => centerDist a < centerDist c ∨
          (centerDist a = centerDist c ∧ a < c)) := by
      decide
    exact List.Pairwise.sublist (List.filter_sublist _) hP
  · rcases hv : getValidMoves b with _ | ⟨c, rest⟩
    · rw [hv] at hge
      simp at hge
    · rcases rest with _ | ⟨c2, rest2⟩
      · rw [hv] at hge
        simp at hge
      · have hbm : getBestMove b depth
            = bestLoop b (depth - 1) (orderMoves (c :: c2 :: rest2))
                .negInf (c : Int) := by
          unfold getBestMove
          rw [hv]
        rcases bestLoop_spec b (depth - 1) (orderMoves (c :: c2 :: rest2))
            .negInf (c : Int) with ⟨_, hall⟩ | ⟨i, hi, heq, _, hfirst, hmax⟩
        · exfalso
          have hlen : 0 < (orderMoves (c :: c2 :: rest2)).length := by
            rw [orderMoves_length]
            simp
          have hmem := List.get_mem (orderMoves (c :: c2 :: rest2)) 0 hlen
          have hbot := hall _ hmem
          obtain ⟨n, hn⟩ := minimax_fin (depth - 1)
            (dropToken (clone b)
              (((orderMoves (c :: c2 :: rest2)).get ⟨0, hlen⟩ : Nat) : Int)
              AI_PLAYER).2 .negInf .posInf false
          rw [show rootScore b (depth - 1)
              ((orderMoves (c :: c2 :: rest2)).get ⟨0, hlen⟩) = XInt.fin n
            from hn] at hbot
          simp [xle] at hbot
        · exact ⟨i, hi, hbm.trans heq, hfirst, hmax⟩

set_option maxRecDepth 40000 in
/-- Witness for C6 at a concrete input (empty board, depth 1). -/
theorem getBestMove_center_out_witness :
    2 ≤ (getValidMoves emptyBoard).length ∧
    (orderMoves (getValidMoves emptyBoard)
        = ([3, 2, 4, 1, 5, 0, 6] : List Nat).filter
            (fun c => !(isColumnFull emptyBoard ((c : Nat) : Int))) ∧
      (orderMoves (getValidMoves emptyBoard)).Pairwise
        (fun a c => centerDist a < centerDist c ∨
          (centerDist a = centerDist c ∧ a < c)) ∧
      ∃ (i : Nat) (hi : i < (orderMoves (getValidMoves emptyBoard)).length),
        getBestMove emptyBoard 1
          = (((orderMoves (getValidMoves emptyBoard)).get ⟨i, hi⟩ : Nat) : Int) ∧
        (∀ (j : Nat) (hj : j < i),
          xle (rootScore emptyBoard (1 - 1)
                ((orderMoves (getValidMoves emptyBoard)).get ⟨i, hi⟩))
              (rootScore emptyBoard (1 - 1)
                ((orderMoves (getValidMoves emptyBoard)).get
                  ⟨j, Nat.lt_trans hj hi⟩))
            = false) ∧
        (∀ (j : Nat)
            (hj : j < (orderMoves (getValidMoves emptyBoard)).length),
          xle (rootScore emptyBoard (1 - 1)
                ((orderMoves (getValidMoves emptyBoard)).get ⟨j, hj⟩))
              (rootScore emptyBoard (1 - 1)
                ((orderMoves (getValidMoves emptyBoard)).get ⟨i, hi⟩))
            = true)) :=
  ⟨by decide, getBestMove_center_out emptyBoard 1 (by decide)⟩

end Line4up
